import Mathlib

/-
  Verification development for the AAU-Chatbot repository.

  Shallow embedding of the text-normalisation, parameter-extraction and
  dialogue-merge logic of `app/nlp_engine.py`, of `TextProcessor.clean_text`
  from `app/utils.py`, and of the `/chat` handler of `app/main.py`.

  Modelling conventions:
  * Python strings are `List Char`; character classes (`\w`, `\s`, ...) are
    modelled at ASCII granularity, which covers every string the theorems use.
  * Python floats (confidence scores) are rationals: 0.8 is 4/5, 0.5 is 1/2.
  * Python dicts used as slot maps are insertion-ordered association lists.
  * The DistilBERT classifier and the spaCy entity recogniser are external
    collaborators; they enter the model as function parameters (`predict`,
    `ents`).  `models/ml_parameter_extractor.py` does not exist in the
    repository, so `ML_AVAILABLE` is `False` and `AAUNLPEngine` always uses the
    rule-based `ParameterExtractor`, which is what is embedded here.
-/

set_option maxRecDepth 8000
set_option maxHeartbeats 2000000


/-- Python's ASCII whitespace characters, the `\s` class of `re` and the
default strip set of `str.strip()` (at ASCII granularity). -/
def pySpace (c : Char) : Bool :=
  c = ' ' || c = '\t' || c = '\n' || c = '\r' || c = '\x0b' || c = '\x0c'

/-- Python's `\w` word-character class at ASCII granularity. -/
def isWordChar (c : Char) : Bool :=
  c.isAlphanum || c = '_'

/-- Python `str.strip()`: drop leading and trailing whitespace. -/
def pyStrip (s : List Char) : List Char :=
  ((s.dropWhile pySpace).reverse.dropWhile pySpace).reverse

/-- Worker for `re.sub(r'\s+', ' ', s)`: every maximal whitespace run becomes a
single blank.  The boolean records whether the previous character was
whitespace (so that the run only emits one blank). -/
def collapseWS : Bool → List Char → List Char
  | _, [] => []
  | prevSp, c :: cs =>
    if pySpace c then
      if prevSp then collapseWS true cs else ' ' :: collapseWS true cs
    else
      c :: collapseWS false cs

/-- The shared first step of `_preprocess_text` and `clean_text`:
`re.sub(r'\s+', ' ', text.strip())`. -/
def cleanWS (s : List Char) : List Char :=
  collapseWS false (pyStrip s)

/-- Characters kept by `re.sub(r'[^\w\s\-.,!?]', '', text)`. -/
def keepChar (c : Char) : Bool :=
  isWordChar c || pySpace c || c = '-' || c = '.' || c = ',' || c = '!' || c = '?'

/-- The `TextProcessor.clean_text` static method of `app/utils.py`: empty input
maps to empty output, otherwise whitespace is collapsed after stripping and
then every character outside `[\w\s\-.,!?]` is removed. -/
def clean_text (s : List Char) : List Char :=
  if s.isEmpty then [] else (cleanWS s).filter keepChar

/-- A maximal run of characters of one kind: `word` runs hold `\w` characters,
`sep` runs hold everything else.  `re.sub(r'\bABBR\b', full, s)` for an
abbreviation made of word characters rewrites exactly the maximal word runs
equal to the abbreviation, which is how `applyAbbrev` below models it. -/
inductive Chunk where
  | word : List Char → Chunk
  | sep : List Char → Chunk
deriving DecidableEq, Repr

def chunkChars : Chunk → List Char
  | .word w => w
  | .sep w => w

def chunkIsWord : Chunk → Bool
  | .word _ => true
  | .sep _ => false

/-- Prepend one character to a chunk list, merging it into the first run when
the kinds agree. -/
def consChunk (c : Char) : List Chunk → List Chunk
  | [] => if isWordChar c then [.word [c]] else [.sep [c]]
  | .word w :: rest =>
    if isWordChar c then .word (c :: w) :: rest else .sep [c] :: .word w :: rest
  | .sep w :: rest =>
    if isWordChar c then .word [c] :: .sep w :: rest else .sep (c :: w) :: rest

/-- Split a string into its maximal word / non-word runs. -/
def parseChunks : List Char → List Chunk
  | [] => []
  | c :: cs => consChunk c (parseChunks cs)

def flattenChunks : List Chunk → List Char
  | [] => []
  | ch :: rest => chunkChars ch ++ flattenChunks rest

/-- Python `str.lower()` at ASCII granularity. -/
def lcList (s : List Char) : List Char :=
  s.map Char.toLower

def concatMap {α β : Type} (f : α → List β) : List α → List β
  | [] => []
  | a :: t => f a ++ concatMap f t

/-- One abbreviation step on one run: a maximal word run equal (case
insensitively) to the abbreviation is replaced by the runs of the expansion
text; every other run is kept. -/
def expandChunk (abbr full : List Char) : Chunk → List Chunk
  | .word w => if lcList w = abbr then parseChunks full else [.word w]
  | .sep w => [.sep w]

/-- Models `re.sub(r'\b' + abbr + r'\b', full, text, flags=re.IGNORECASE)` for
an abbreviation consisting of word characters only: a `\b...\b` occurrence of
such a pattern is exactly a maximal word run equal to it (its neighbours are
non-word characters or the ends of the string), so the substitution rewrites
precisely those runs. -/
def applyAbbrev (s : List Char) (p : List Char × List Char) : List Char :=
  flattenChunks (concatMap (expandChunk p.1 p.2) (parseChunks s))

/-- The abbreviation table of `AAUNLPEngine._preprocess_text`, in the
insertion order of the Python dict. -/
def abbreviations : List (List Char × List Char) :=
  [("aau".toList, "addis ababa university".toList),
   ("cs".toList, "computer science".toList),
   ("eng".toList, "engineering".toList),
   ("med".toList, "medicine".toList),
   ("biz".toList, "business".toList),
   ("econ".toList, "economics".toList)]

/-- The `AAUNLPEngine._preprocess_text` method: collapse whitespace after
stripping, then expand the six abbreviations in dict order. -/
def preprocess_text (s : List Char) : List Char :=
  List.foldl applyAbbrev (cleanWS s) abbreviations

/-- Python `str.split()` with no argument: split on whitespace runs, dropping
empty pieces. -/
def splitWS : List Char → List (List Char)
  | [] => []
  | c :: cs =>
    if pySpace c then splitWS cs
    else
      match splitWS cs with
      | [] => [[c]]
      | w :: ws =>
        match cs with
        | [] => [[c]]
        | d :: _ => if pySpace d then [c] :: w :: ws else (c :: w) :: ws

/-- Abstract syntax of the fragment of Python regular expressions used by
`ParameterExtractor`: literals, single-character classes, concatenation,
prioritised alternation, greedy `*` and `?`, capturing groups and the
zero-width word boundary `\b`. -/
inductive RE where
  | lit : List Char → RE
  | cls : (Char → Bool) → RE
  | seq : List RE → RE
  | alt : List RE → RE
  | star : RE → RE
  | opt : RE → RE
  | grp : Nat → RE → RE
  | wb : RE

/-- One way a pattern can match a prefix of the remaining input: the consumed
text, the character preceding the new position, the remaining input, and the
captured groups. -/
structure MRes where
  consumed : List Char
  prev : Option Char
  rest : List Char
  caps : List (Nat × List Char)

/-- Match a literal against a prefix of the input, optionally case
insensitively, returning the consumed text and the remainder. -/
def litMatch (ci : Bool) : List Char → List Char → Option (List Char × List Char)
  | [], rest => some ([], rest)
  | _ :: _, [] => none
  | p :: ps, c :: cs =>
    if (if ci then p.toLower = c.toLower else p = c) then
      (litMatch ci ps cs).map (fun r => (c :: r.1, r.2))
    else none

/-- Python's `\b`: the word-character status changes between the previous
character (absent at the start) and the next one (absent at the end). -/
def wordBoundary (prev : Option Char) (rest : List Char) : Bool :=
  (match prev with | some c => isWordChar c | none => false)
    != (match rest with | c :: _ => isWordChar c | [] => false)

def updPrev (consumed : List Char) (prev : Option Char) : Option Char :=
  match consumed.getLast? with
  | some c => some c
  | none => prev

/-- Backtracking matcher: all ways the pattern matches a prefix of `rest`, in
Python's priority order (alternatives left to right, repetition greedy).  The
fuel argument only forces termination; `mfuel` below always provides enough
for the patterns and inputs in question. -/
def mrun (ci : Bool) : Nat → RE → Option Char → List Char → List MRes
  | 0, _, _, _ => []
  | Nat.succ _, .lit cs, prev, rest =>
    match litMatch ci cs rest with
    | some r => [⟨r.1, updPrev r.1 prev, r.2, []⟩]
    | none => []
  | Nat.succ _, .cls p, _prev, rest =>
    match rest with
    | [] => []
    | c :: t => if p c then [⟨[c], some c, t, []⟩] else []
  | Nat.succ _, .wb, prev, rest =>
    if wordBoundary prev rest then [⟨[], prev, rest, []⟩] else []
  | Nat.succ fuel, .alt rs, prev, rest =>
    concatMap (fun r => mrun ci fuel r prev rest) rs
  | Nat.succ fuel, .seq rs, prev, rest =>
    match rs with
    | [] => [⟨[], prev, rest, []⟩]
    | r :: rtail =>
      concatMap
        (fun m1 =>
          (mrun ci fuel (.seq rtail) m1.prev m1.rest).map
            (fun m2 => ⟨m1.consumed ++ m2.consumed, m2.prev, m2.rest, m1.caps ++ m2.caps⟩))
        (mrun ci fuel r prev rest)
  | Nat.succ fuel, .star r, prev, rest =>
    concatMap
      (fun m1 =>
        (mrun ci fuel (.star r) m1.prev m1.rest).map
          (fun m2 => ⟨m1.consumed ++ m2.consumed, m2.prev, m2.rest, m1.caps ++ m2.caps⟩))
      ((mrun ci fuel r prev rest).filter (fun m => !m.consumed.isEmpty))
      ++ [⟨[], prev, rest, []⟩]
  | Nat.succ fuel, .opt r, prev, rest =>
    mrun ci fuel r prev rest ++ [⟨[], prev, rest, []⟩]
  | Nat.succ fuel, .grp i r, prev, rest =>
    (mrun ci fuel r prev rest).map
      (fun m => ⟨m.consumed, m.prev, m.rest, m.caps ++ [(i, m.consumed)]⟩)

/-- Fuel that is always sufficient for the patterns of this file: every
recursive call of `mrun` either shrinks the pattern (whose size is far below
200) or shrinks the input. -/
def mfuel (rest : List Char) : Nat := 200 * (rest.length + 2)

/-- Captured groups of the first (leftmost, highest-priority) match attempt
that succeeds; `re.search` semantics. -/
def research0 (ci : Bool) (r : RE) : Nat → Option Char → List Char → Option (List (Nat × List Char))
  | 0, _, _ => none
  | Nat.succ fuel, prev, rest =>
    match (mrun ci (mfuel rest) r prev rest).head? with
    | some m => some m.caps
    | none =>
      match rest with
      | [] => none
      | c :: t => research0 ci r fuel (some c) t

def research (ci : Bool) (r : RE) (s : List Char) : Option (List (Nat × List Char)) :=
  research0 ci r (s.length + 1) none s

/-- Captured groups of every non-overlapping match, scanning left to right;
`re.findall` semantics (a zero-width match advances one position). -/
def refindall0 (ci : Bool) (r : RE) : Nat → Option Char → List Char → List (List (Nat × List Char))
  | 0, _, _ => []
  | Nat.succ fuel, prev, rest =>
    match (mrun ci (mfuel rest) r prev rest).head? with
    | some m =>
      if m.consumed.isEmpty then
        m.caps :: (match rest with
          | [] => []
          | c :: t => refindall0 ci r fuel (some c) t)
      else
        m.caps :: refindall0 ci r fuel m.prev m.rest
    | none =>
      match rest with
      | [] => []
      | c :: t => refindall0 ci r fuel (some c) t

def refindall (ci : Bool) (r : RE) (s : List Char) : List (List (Nat × List Char)) :=
  refindall0 ci r (s.length + 1) none s

/-- The text captured by group `i`, or the empty string when the group did not
take part in the match (Python renders such a group as `''`). -/
def capGet (caps : List (Nat × List Char)) (i : Nat) : List Char :=
  match caps.find? (fun e => e.1 = i) with
  | some e => e.2
  | none => []

def reLit (s : String) : RE := .lit s.toList

def reAltLits (ss : List String) : RE := .alt (ss.map reLit)

def rePlus (r : RE) : RE := .seq [r, .star r]

def reSpaces0 : RE := .star (.cls pySpace)

def reSpaces1 : RE := rePlus (.cls pySpace)

def reDigit : RE := .cls Char.isDigit

/-- Exact-key lookup in an insertion-ordered table, Python `dict.get`. -/
def tblGet : List (List Char × List Char) → List Char → Option (List Char)
  | [], _ => none
  | (k, v) :: t, x => if k = x then some v else tblGet t x

def listPre : List Char → List Char → Bool
  | [], _ => true
  | _ :: _, [] => false
  | a :: as2, b :: bs => a = b && listPre as2 bs

/-- Python's `key in text` substring test. -/
def listSubstr (p : List Char) : List Char → Bool
  | [] => p.isEmpty
  | c :: cs => listPre p (c :: cs) || listSubstr p cs

/-- First table entry whose key occurs as a substring of the text, in the
insertion order of the Python dict (`for key, value in mappings.items()`). -/
def firstInfixVal : List (List Char × List Char) → List Char → Option (List Char)
  | [], _ => none
  | (k, v) :: rest, t => if listSubstr k t then some v else firstInfixVal rest t

/-- The `dept_mappings` dict of `_normalize_department_answer`. -/
def deptMappings : List (List Char × List Char) :=
  [("cs".toList, "computer science".toList),
   ("cse".toList, "computer science".toList),
   ("computer science".toList, "computer science".toList),
   ("comp sci".toList, "computer science".toList),
   ("software engineering".toList, "software engineering".toList),
   ("information science".toList, "information science".toList),
   ("engineering".toList, "engineering".toList),
   ("eng".toList, "engineering".toList),
   ("medicine".toList, "medicine".toList),
   ("med".toList, "medicine".toList),
   ("veterinary medicine".toList, "veterinary medicine".toList),
   ("vet med".toList, "veterinary medicine".toList),
   ("pharmacy".toList, "pharmacy".toList),
   ("architecture".toList, "architecture".toList),
   ("law".toList, "law".toList),
   ("business".toList, "business".toList),
   ("biz".toList, "business".toList),
   ("economics".toList, "economics".toList),
   ("econ".toList, "economics".toList),
   ("psychology".toList, "psychology".toList),
   ("psych".toList, "psychology".toList),
   ("biology".toList, "biology".toList),
   ("bio".toList, "biology".toList),
   ("chemistry".toList, "chemistry".toList),
   ("chem".toList, "chemistry".toList),
   ("physics".toList, "physics".toList),
   ("mathematics".toList, "mathematics".toList),
   ("math".toList, "mathematics".toList),
   ("english".toList, "english".toList),
   ("amharic".toList, "amharic".toList),
   ("social sciences".toList, "social sciences".toList),
   ("education".toList, "education".toList),
   ("journalism".toList, "journalism".toList),
   ("music".toList, "music".toList),
   ("art".toList, "art".toList),
   ("theatre".toList, "theatre".toList)]

/-- The `semester_mappings` dict of `_extract_semester_from_answer`, in dict
insertion order (the order matters for the substring pass). -/
def semMappings : List (List Char × List Char) :=
  [("first".toList, "first".toList),
   ("1st".toList, "first".toList),
   ("1".toList, "first".toList),
   ("second".toList, "second".toList),
   ("2nd".toList, "second".toList),
   ("2".toList, "second".toList),
   ("third".toList, "third".toList),
   ("3rd".toList, "third".toList),
   ("3".toList, "third".toList),
   ("fall".toList, "fall".toList),
   ("spring".toList, "spring".toList),
   ("summer".toList, "summer".toList)]

/-- The `doc_mappings` dict of `_extract_document_from_answer`. -/
def docMappings : List (List Char × List Char) :=
  [("transcript".toList, "transcript".toList),
   ("certificate".toList, "certificate".toList),
   ("diploma".toList, "diploma".toList),
   ("degree".toList, "degree certificate".toList),
   ("grade report".toList, "grade report".toList),
   ("grades".toList, "grade report".toList)]

/-- Pattern `\b(1st|2nd|3rd|first|second|third)\s*semester\b`. -/
def semOrdRE : RE :=
  .seq [.wb, .grp 1 (reAltLits ["1st", "2nd", "3rd", "first", "second", "third"]),
        reSpaces0, reLit "semester", .wb]

/-- Table phase of `_extract_semester_from_answer`: exact key first, then the
first key occurring as a substring. -/
def semTableLook (t : List Char) : Option (List Char) :=
  match tblGet semMappings t with
  | some v => some v
  | none => firstInfixVal semMappings t

/-- The `ParameterExtractor._extract_semester_from_answer` method. -/
def extract_semester_from_answer (text : List Char) : Option (List Char) :=
  let t := pyStrip text
  match research true semOrdRE t with
  | some caps =>
    let o := lcList (capGet caps 1)
    if o = "1st".toList ∨ o = "first".toList then some "first".toList
    else if o = "2nd".toList ∨ o = "second".toList then some "second".toList
    else if o = "3rd".toList ∨ o = "third".toList then some "third".toList
    else semTableLook t
  | none => semTableLook t

/-- Pattern `\b(20\d{2})\b`. -/
def year4RE : RE := .seq [.wb, .grp 1 (.seq [reLit "20", reDigit, reDigit]), .wb]

/-- Pattern `\b(\d+)(?:st|nd|rd|th)?\s*year\b`. -/
def yearOrdRE : RE :=
  .seq [.wb, .grp 1 (rePlus reDigit), .opt (reAltLits ["st", "nd", "rd", "th"]),
        reSpaces0, reLit "year", .wb]

/-- Pattern `\b(\d{4})\b`. -/
def digits4RE : RE := .seq [.wb, .grp 1 (.seq [reDigit, reDigit, reDigit, reDigit]), .wb]

/-- Python `int` on a run of ASCII digits. -/
def digitsToNat (l : List Char) : Nat :=
  l.foldl (fun a c => a * 10 + (c.toNat - 48)) 0

/-- Python `str` on a non-negative integer. -/
def natToChars (n : Nat) : List Char := (toString n).toList

/-- The `ParameterExtractor._extract_year_from_answer` method: a `20dd` token
wins, then an ordinal `N(st|nd|rd|th)? year` resolved as `2024 - 4 + N`
(`current_year` is hard-coded to 2024 in the source), then any other 4-digit
token restricted to the range 2020..2030. -/
def extract_year_from_answer (text : List Char) : Option (List Char) :=
  match research false year4RE text with
  | some caps => some (capGet caps 1)
  | none =>
    match research true yearOrdRE text with
    | some caps => some (natToChars (2024 - 4 + digitsToNat (capGet caps 1)))
    | none =>
      match research false digits4RE text with
      | some caps =>
        let y := digitsToNat (capGet caps 1)
        if 2020 ≤ y ∧ y ≤ 2030 then some (natToChars y) else none
      | none => none

/-- The `ParameterExtractor._extract_document_from_answer` method. -/
def extract_document_from_answer (text : List Char) : Option (List Char) :=
  tblGet docMappings (pyStrip text)

/-- The `ParameterExtractor._normalize_department_answer` method. -/
def normalize_department_answer (text : List Char) : Option (List Char) :=
  tblGet deptMappings (pyStrip text)

/-- The amount body `\d+(?:,\d{3})*(?:\.\d{2})?` shared by the fee patterns. -/
def amountBody : RE :=
  .seq [rePlus reDigit, .star (.seq [reLit ",", reDigit, reDigit, reDigit]),
        .opt (.seq [reLit ".", reDigit, reDigit])]

/-- Pattern `\b(\d+(?:,\d{3})*(?:\.\d{2})?)\b` of `_extract_amount_from_answer`. -/
def amountRE : RE := .seq [.wb, .grp 1 amountBody, .wb]

/-- The `ParameterExtractor._extract_amount_from_answer` method. -/
def extract_amount_from_answer (text : List Char) : Option (List Char) :=
  (research false amountRE text).map (fun caps => capGet caps 1)

/-- Slot maps (`Dict[str, List[str]]`) as insertion-ordered association
lists, mirroring Python dict semantics: updating an existing key keeps its
position, a new key is appended. -/
abbrev ParamMap := List (String × List (List Char))

def pmUpdate : ParamMap → String → List (List Char) → ParamMap
  | [], k, v => [(k, v)]
  | (k', v') :: t, k, v => if k' = k then (k, v) :: t else (k', v') :: pmUpdate t k v

def pmLookup : ParamMap → String → Option (List (List Char))
  | [], _ => none
  | (k', v') :: t, k => if k' = k then some v' else pmLookup t k

/-- Python `base.update(new)`: every entry of `new` overwrites `base`. -/
def pmUpdateAll (base new : ParamMap) : ParamMap :=
  new.foldl (fun acc e => pmUpdate acc e.1 e.2) base

/-- The guarded merge of the fresh-query branch of `process_query`:
`for key, value in parameters.items(): if value: merged[key] = value`. -/
def pmMergeTruthy (base new : ParamMap) : ParamMap :=
  new.foldl (fun acc e => if e.2.isEmpty then acc else pmUpdate acc e.1 e.2) base

def pmKeys (m : ParamMap) : List String := m.map (·.1)

/-- Python truthiness of `parameters[k]`: the key exists and its list is
non-empty. -/
def pmTruthy (m : ParamMap) (k : String) : Bool :=
  match pmLookup m k with
  | some v => !v.isEmpty
  | none => false

/-- Result shape of `ParameterExtractor.extract_entities`; the spaCy model is
an external collaborator, so the entity recogniser enters the embedding as a
function parameter.  When spaCy is not installed (`self.nlp is None`) every
field is empty. -/
structure Entities where
  person : List (List Char)
  org : List (List Char)
  date : List (List Char)
  money : List (List Char)
  gpe : List (List Char)

/-- The entity recogniser of the `self.nlp = None` configuration. -/
def noEnts : List Char → Entities := fun _ => ⟨[], [], [], [], []⟩

/-- Conversation context dict: the five keys the `/chat` handler stores plus
`missing_parameters`, which `process_query` reads.  `Option` fields model key
absence; `conversation_history` and `timestamp` are only ever read with
defaults, so they are plain fields. -/
structure Ctx where
  last_intent : Option String
  last_parameters : Option ParamMap
  all_parameters : Option ParamMap
  missing_parameters : Option (List String)
  conversation_history : List (List Char × String × String)
  timestamp : String
deriving DecidableEq

/-- Pattern 1 of `department_patterns`. -/
def dept1RE : RE :=
  .seq [.wb, .grp 1 (reAltLits ["computer science", "cs", "engineering", "medicine", "law",
    "business", "economics", "psychology", "biology", "chemistry", "physics", "mathematics",
    "english", "amharic"]), .wb]

def dept2RE : RE :=
  .seq [.wb, .grp 1 (reAltLits ["veterinary medicine", "pharmacy", "architecture",
    "information science", "software engineering"]), .wb]

def dept3RE : RE :=
  .seq [.wb, .grp 1 (reAltLits ["social sciences", "education", "journalism", "music",
    "art", "theatre"]), .wb]

/-- Pattern `\b(school of|faculty of|department of|college of)\s+([a-zA-Z\s]+)`. -/
def dept4RE : RE :=
  .seq [.wb, .grp 1 (reAltLits ["school of", "faculty of", "department of", "college of"]),
        reSpaces1, .grp 2 (rePlus (.cls (fun c => c.isAlpha || pySpace c)))]

def doc1RE : RE :=
  .seq [.wb, .grp 1 (reAltLits ["transcript", "certificate", "diploma", "degree",
    "grade report", "academic record", "student id", "recommendation letter"]), .wb]

def doc2RE : RE :=
  .seq [.wb, .grp 1 (reAltLits ["enrollment verification", "graduation certificate",
    "academic standing certificate"]), .wb]

/-- Pattern `\b(semester|sem)\s*(\d+)`. -/
def sem1RE : RE :=
  .seq [.wb, .grp 1 (reAltLits ["semester", "sem"]), reSpaces0, .grp 2 (rePlus reDigit)]

/-- Pattern `\b(first|second|third|1st|2nd|3rd)\s+(semester|sem)`. -/
def sem2RE : RE :=
  .seq [.wb, .grp 1 (reAltLits ["first", "second", "third", "1st", "2nd", "3rd"]),
        reSpaces1, .grp 2 (reAltLits ["semester", "sem"])]

/-- Pattern `\b(fall|spring|summer|kiremt)\s+(semester|term)`. -/
def sem3RE : RE :=
  .seq [.wb, .grp 1 (reAltLits ["fall", "spring", "summer", "kiremt"]),
        reSpaces1, .grp 2 (reAltLits ["semester", "term"])]

/-- Pattern `\b(year|yr)\s*(\d+)`. -/
def yr2RE : RE :=
  .seq [.wb, .grp 1 (reAltLits ["year", "yr"]), reSpaces0, .grp 2 (rePlus reDigit)]

/-- Pattern `\b(\d{4})\s*(academic year|ay)`. -/
def yr3RE : RE :=
  .seq [.wb, .grp 1 (.seq [reDigit, reDigit, reDigit, reDigit]), reSpaces0,
        .grp 2 (reAltLits ["academic year", "ay"])]

/-- Pattern `\b(\d+(?:,\d{3})*(?:\.\d{2})?)\s*(birr|etb|usd|\$)?\b`. -/
def fee1RE : RE :=
  .seq [.wb, .grp 1 amountBody, reSpaces0, .opt (.grp 2 (reAltLits ["birr", "etb", "usd", "$"])), .wb]

/-- Pattern `\b(undergraduate|graduate|masters|phd|international|foreign)\s+fee\b`. -/
def fee2RE : RE :=
  .seq [.wb, .grp 1 (reAltLits ["undergraduate", "graduate", "masters", "phd",
    "international", "foreign"]), reSpaces1, reLit "fee", .wb]

/-- Pattern `\b(international|foreign)\s+(student|students)\b`. -/
def stud1RE : RE :=
  .seq [.wb, .grp 1 (reAltLits ["international", "foreign"]), reSpaces1,
        .grp 2 (reAltLits ["student", "students"]), .wb]

def stud2RE : RE := .seq [.wb, .grp 1 (reAltLits ["refugee", "refugees"]), .wb]

/-- Pattern `\b(igad|east\s+african)\s+(student|students|country|countries)\b`. -/
def stud3RE : RE :=
  .seq [.wb, .grp 1 (.alt [reLit "igad", .seq [reLit "east", reSpaces1, reLit "african"]]),
        reSpaces1, .grp 2 (reAltLits ["student", "students", "country", "countries"]), .wb]

def camp1RE : RE :=
  .seq [.wb, .grp 1 (reAltLits ["sidist kilo", "main campus", "sefere selam",
    "science campus", "4 kilo", "bishoftu"]), .wb]

def camp2RE : RE :=
  .seq [.wb, .grp 1 (reAltLits ["6 kilo", "main", "medical campus"]), .wb]

/-- Pattern `\b(student\s*id|id\s*number|student\s*number)` then `[\s:]*` then
a group of one or more characters from the class letters, digits, slash,
hyphen, then `\b`. -/
def studentIdRE : RE :=
  .seq [.wb,
        .grp 1 (.alt [.seq [reLit "student", reSpaces0, reLit "id"],
                      .seq [reLit "id", reSpaces0, reLit "number"],
                      .seq [reLit "student", reSpaces0, reLit "number"]]),
        .star (.cls (fun c => pySpace c || c = ':')),
        .grp 2 (rePlus (.cls (fun c => c.isAlphanum || c = '/' || c = '-'))), .wb]

/-- Group-1 projection of a findall result (the `matches` list for a
one-group pattern). -/
def g1s (rs : List (List (Nat × List Char))) : List (List Char) :=
  rs.map (fun caps => capGet caps 1)

/-- The `departments` list of the regular sweep: patterns 1-3 contribute the
matched string, pattern 4 contributes `match[1].strip()`. -/
def departmentsOf (tl : List Char) : List (List Char) :=
  g1s (refindall true dept1RE tl) ++ g1s (refindall true dept2RE tl)
    ++ g1s (refindall true dept3RE tl)
    ++ (refindall true dept4RE tl).map (fun caps => pyStrip (capGet caps 2))

def documentsOf (tl : List Char) : List (List Char) :=
  g1s (refindall true doc1RE tl) ++ g1s (refindall true doc2RE tl)

/-- The `semesters` list: each tuple match is joined with a blank
(`' '.join(match)`). -/
def semestersOf (tl : List Char) : List (List Char) :=
  (refindall true sem1RE tl).map (fun c => capGet c 1 ++ ' ' :: capGet c 2)
    ++ (refindall true sem2RE tl).map (fun c => capGet c 1 ++ ' ' :: capGet c 2)
    ++ (refindall true sem3RE tl).map (fun c => capGet c 1 ++ ' ' :: capGet c 2)

/-- The `years` list: the one-group pattern contributes the matched string,
the tuple patterns contribute `match[1] if match[1] else match[0]`. -/
def yearsOf (tl : List Char) : List (List Char) :=
  g1s (refindall true year4RE tl)
    ++ (refindall true yr2RE tl).map
        (fun c => if (capGet c 2).isEmpty then capGet c 1 else capGet c 2)
    ++ (refindall true yr3RE tl).map
        (fun c => if (capGet c 2).isEmpty then capGet c 1 else capGet c 2)

/-- The `fees` list: pattern 1 contributes `match[0]` for matches with a
non-empty first group, pattern 2 the matched string. -/
def feesOf (tl : List Char) : List (List Char) :=
  ((refindall true fee1RE tl).map (fun c => capGet c 1)).filter (fun v => !v.isEmpty)
    ++ g1s (refindall true fee2RE tl)

def campusesOf (tl : List Char) : List (List Char) :=
  g1s (refindall true camp1RE tl) ++ g1s (refindall true camp2RE tl)

def studentTypesOf (tl : List Char) : List (List Char) :=
  g1s (refindall true stud1RE tl) ++ g1s (refindall true stud2RE tl)
    ++ g1s (refindall true stud3RE tl)

/-- The `fee_payment`-specific sweep (`re.findall(fee_pattern, text_lower)`,
no flags): `[match[0] for match in fee_matches]`. -/
def feeIntentOf (tl : List Char) : List (List Char) :=
  (refindall false fee1RE tl).map (fun c => capGet c 1)

/-- The `transcript_request`-specific sweep: `[match[1] for match in id_matches]`. -/
def studentIdOf (tl : List Char) : List (List Char) :=
  (refindall false studentIdRE tl).map (fun c => capGet c 2)

def pyDedup0 (seen : List (List Char)) : List (List Char) → List (List Char)
  | [] => []
  | x :: t => if seen.contains x then pyDedup0 seen t else x :: pyDedup0 (x :: seen) t

/-- Python `list(set(xs))`.  CPython's set iteration order for strings is
unspecified (hash randomised); this model keeps first occurrences.  The
theorems below only use order-insensitive consequences (membership,
non-emptiness, singletons). -/
def pyDedup (l : List (List Char)) : List (List Char) := pyDedup0 [] l

/-- The context-aware block of `ParameterExtractor.extract_parameters`
(lines 325-357): try the five answer extractors, keeping a value only when
its slot name is in the missing list, in the dict insertion order
semester, year, department, document_type, fee_amount. -/
def ctxAdd (missing : List String) (name : String) (o : Option (List Char))
    (p : ParamMap) : ParamMap :=
  match o with
  | some s => if !s.isEmpty && missing.contains name then pmUpdate p name [s] else p
  | none => p

def contextExtract (text text_lower : List Char) (missing : List String) : ParamMap :=
  ctxAdd missing "fee_amount" (extract_amount_from_answer text)
    (ctxAdd missing "document_type" (extract_document_from_answer text_lower)
      (ctxAdd missing "department" (normalize_department_answer text_lower)
        (ctxAdd missing "year" (extract_year_from_answer text)
          (ctxAdd missing "semester" (extract_semester_from_answer text_lower) []))))

/-- A guarded dict write of the regular sweep: `if values: parameters[k] = values`. -/
def swAdd (k : String) (vals : List (List Char)) (p : ParamMap) : ParamMap :=
  if vals.isEmpty then p else pmUpdate p k vals

/-- A guarded deduplicating dict write: `if values: parameters[k] = list(set(values))`. -/
def swAddDedup (k : String) (vals : List (List Char)) (p : ParamMap) : ParamMap :=
  if vals.isEmpty then p else pmUpdate p k (pyDedup vals)

/-- The intent-independent writes of the regular sweep (lines 365-456), in
source order: departments, document types, semesters, years, fees, campuses,
student types, then the named entities (person, date, money). -/
def sweepBase (ents : List Char → Entities) (text text_lower : List Char)
    (p0 : ParamMap) : ParamMap :=
  swAdd "amount" (ents text).money
    (swAdd "date" (ents text).date
      (swAdd "person" (ents text).person
        (swAddDedup "student_type" (studentTypesOf text_lower)
          (swAddDedup "campus" (campusesOf text_lower)
            (swAddDedup "fee_amount" (feesOf text_lower)
              (swAddDedup "year" (yearsOf text_lower)
                (swAddDedup "semester" (semestersOf text_lower)
                  (swAddDedup "document_type" (documentsOf text_lower)
                    (swAddDedup "department" (departmentsOf text_lower) p0)))))))))

/-- The regular (non-context) sweep of `extract_parameters` (lines 365-473),
writing into the parameter dict accumulated so far, with the intent-specific
writes (lines 458-471) at the end. -/
def regularSweep (ents : List Char → Entities) (text text_lower : List Char)
    (intent : String) (p0 : ParamMap) : ParamMap :=
  if intent = "fee_payment" then
    swAdd "fee_amount" (feeIntentOf text_lower) (sweepBase ents text text_lower p0)
  else if intent = "transcript_request" then
    swAdd "student_id" (studentIdOf text_lower) (sweepBase ents text text_lower p0)
  else sweepBase ents text text_lower p0

/-- The `ParameterExtractor.extract_parameters` method: when the context
carries a non-empty missing list, the context-aware block runs first; if it
fills at least as many slots as are missing the call returns early, otherwise
the regular sweep continues on top of what the block produced. -/
def extract_parameters (ents : List Char → Entities) (text : List Char)
    (intent : String) (context : Option Ctx) : ParamMap :=
  match context with
  | some c =>
    match c.missing_parameters with
    | some missing =>
      if missing.isEmpty then regularSweep ents text (lcList text) intent []
      else if (contextExtract text (lcList text) missing).isEmpty then
        regularSweep ents text (lcList text) intent []
      else if missing.length ≤ (contextExtract text (lcList text) missing).length then
        contextExtract text (lcList text) missing
      else
        regularSweep ents text (lcList text) intent (contextExtract text (lcList text) missing)
    | none => regularSweep ents text (lcList text) intent []
  | none => regularSweep ents text (lcList text) intent []

/-- The `IntentClassifier` of `app/nlp_engine.py`: the trained DistilBERT
model is an external collaborator, modelled by the `model` field; `predict`
short-circuits to the fixed default before training. -/
structure IntentClassifier where
  is_trained : Bool
  model : List Char → String × ℚ

/-- The `IntentClassifier.predict` method: an untrained classifier returns
`('general_info', 0.5)` for every input. -/
def IntentClassifier.predict (c : IntentClassifier) (text : List Char) : String × ℚ :=
  if c.is_trained then c.model text else ("general_info", 1/2)

/-- The `required_params` table of `AAUNLPEngine._get_required_parameters`,
in source order. -/
def requiredParamsTable : List (String × List String) :=
  [("admission_inquiry", ["department"]),
   ("registration_help", ["semester", "year"]),
   ("fee_payment", ["fee_amount"]),
   ("transcript_request", ["document_type"]),
   ("grade_inquiry", ["semester", "year"]),
   ("course_information", ["department"]),
   ("schedule_inquiry", ["semester", "year"]),
   ("document_request", ["document_type"]),
   ("general_info", []),
   ("technical_support", []),
   ("undergraduate_admission", ["department"]),
   ("graduate_admission", ["department"]),
   ("gat_exam_inquiry", []),
   ("international_admission", []),
   ("undergraduate_fee_inquiry", ["department"]),
   ("graduate_fee_inquiry", ["department"]),
   ("international_student_fees", []),
   ("payment_methods_inquiry", []),
   ("course_catalog_inquiry", ["department"]),
   ("prerequisite_inquiry", ["department"]),
   ("academic_calendar_inquiry", ["year"]),
   ("exam_schedule_inquiry", ["semester", "year"]),
   ("grade_report_request", []),
   ("official_transcript_request", ["document_type"]),
   ("certificate_request", ["document_type"]),
   ("student_id_services", []),
   ("library_services_inquiry", []),
   ("accommodation_inquiry", []),
   ("campus_location_inquiry", []),
   ("facility_booking_inquiry", []),
   ("thesis_submission_process", []),
   ("research_opportunity_inquiry", []),
   ("readmission_inquiry", []),
   ("alumni_services_inquiry", []),
   ("hospital_services_inquiry", []),
   ("book_center_inquiry", []),
   ("radio_station_inquiry", []),
   ("museum_services_inquiry", []),
   ("student_portal_inquiry", [])]

def tblGetS : List (String × List String) → String → Option (List String)
  | [], _ => none
  | (k, v) :: t, x => if k = x then some v else tblGetS t x

/-- The `AAUNLPEngine._get_required_parameters` method
(`required_params.get(intent, [])`). -/
def get_required_parameters (intent : String) : List String :=
  (tblGetS requiredParamsTable intent).getD []

/-- Result dict of `AAUNLPEngine.process_query`. -/
structure NLPResult where
  intent : String
  confidence : ℚ
  parameters : ParamMap
  missing_parameters : List String
  needs_clarification : Bool
  processed_text : List Char
  context_used : Bool
deriving DecidableEq

/-- The follow-up detection condition of `process_query` (line 643):
`context and context.get('missing_parameters') and len(cleaned_text.split()) <= 5`.
The first argument is the already preprocessed text. -/
def followUpB (cleaned : List Char) (context : Option Ctx) : Bool :=
  match context with
  | some c =>
    (match c.missing_parameters with
     | some l => !l.isEmpty
     | none => false) && decide ((splitWS cleaned).length ≤ 5)
  | none => false

/-- Follow-up branch of `process_query` (lines 644-655): reuse the previous
intent with fixed confidence 0.8 (modelled as 4/5), extract with context, and
merge over a copy of `all_parameters` with plain `dict.update`. -/
def pqFollowUp (ents : List Char → Entities) (cleaned : List Char) (c : Ctx) :
    String × ℚ × ParamMap :=
  let intent := c.last_intent.getD "general_info"
  let ps := extract_parameters ents cleaned intent (some c)
  let ps := match c.all_parameters with
    | some ap => if ap.isEmpty then ps else pmUpdateAll ap ps
    | none => ps
  (intent, (4 : ℚ) / 5, ps)

/-- Fresh-query branch of `process_query` (lines 656-670): classify, extract,
and merge over `all_parameters` keeping only non-empty new values. -/
def pqFresh (ic : IntentClassifier) (ents : List Char → Entities)
    (cleaned : List Char) (context : Option Ctx) : String × ℚ × ParamMap :=
  let pr := IntentClassifier.predict ic cleaned
  let ps := extract_parameters ents cleaned pr.1 context
  let ps := match context with
    | some c =>
      (match c.all_parameters with
       | some ap => if ap.isEmpty then ps else pmMergeTruthy ap ps
       | none => ps)
    | none => ps
  (pr.1, pr.2, ps)

/-- The `AAUNLPEngine.process_query` method. -/
def process_query (ic : IntentClassifier) (ents : List Char → Entities)
    (text : List Char) (context : Option Ctx) : NLPResult :=
  let cleaned := preprocess_text text
  let icp :=
    match context with
    | some c =>
      if followUpB cleaned (some c) then pqFollowUp ents cleaned c
      else pqFresh ic ents cleaned (some c)
    | none => pqFresh ic ents cleaned none
  let missing := (get_required_parameters icp.1).filter (fun s => !pmTruthy icp.2.2 s)
  ⟨icp.1, icp.2.1, icp.2.2, missing, !missing.isEmpty, cleaned, context.isSome⟩

/-- Greeting keywords of `main._is_greeting`. -/
def greetingsKW : List (List Char) :=
  ["hello", "hi", "hey", "good morning", "good afternoon", "good evening",
   "greetings"].map String.toList

/-- Goodbye keywords of `main._is_goodbye`. -/
def goodbyesKW : List (List Char) :=
  ["bye", "goodbye", "see you", "farewell", "take care", "thanks",
   "thank you"].map String.toList

/-- `main._is_greeting`: any keyword occurs as a substring of the lowercased
text. -/
def is_greeting (t : List Char) : Bool :=
  greetingsKW.any (fun g => listSubstr g (lcList t))

/-- `main._is_goodbye`. -/
def is_goodbye (t : List Char) : Bool :=
  goodbyesKW.any (fun g => listSubstr g (lcList t))

/-- The canned greeting responses of `main.get_greeting_response`. -/
def greetingResponses : List String :=
  ["Hello! Welcome to AAU Helpdesk. How can I assist you today?",
   "Hi there! I'm here to help with your AAU-related questions.",
   "Greetings! What can I help you with regarding Addis Ababa University?",
   "Good day! How may I be of service to you today?"]

/-- The canned goodbye responses of `main.get_goodbye_response`. -/
def goodbyeResponses : List String :=
  ["Goodbye! Feel free to return if you have more questions.",
   "Have a great day! Contact us again if you need any help.",
   "Bye! Best of luck with your studies at AAU.",
   "Farewell! We're here 24/7 if you need assistance."]

/-- `random.choice` modelled by an externally supplied index reduced modulo
the list length: it returns some element of the list. -/
def pickResp (l : List String) (rng : Nat) : String :=
  l.getD (rng % l.length) ""

/-- The response model of `/chat` (`ChatResponse` in `app/main.py`); news
items are abstracted to strings supplied by the `findNews` collaborator. -/
structure ChatResponse where
  response : String
  intent : String
  confidence : ℚ
  parameters : ParamMap
  missing_parameters : List String
  needs_clarification : Bool
  related_news : Option (List String)
  timestamp : String
deriving DecidableEq

/-- The global `conversation_context` dict, keyed by session id. -/
abbrev SessionMap := List (String × Ctx)

def smLookup : SessionMap → String → Option Ctx
  | [], _ => none
  | (k, c) :: t, s => if k = s then some c else smLookup t s

def smUpdate : SessionMap → String → Ctx → SessionMap
  | [], s, c => [(s, c)]
  | (k, c') :: t, s, c => if k = s then (s, c) :: t else (k, c') :: smUpdate t s c

/-- Outcome of one `/chat` request: a normal JSON response with the updated
session store, or an unhandled exception escaping the handler (an HTTP 500
server error). -/
inductive ChatOutcome where
  | ok : ChatResponse → SessionMap → ChatOutcome
  | serverError : SessionMap → ChatOutcome
deriving DecidableEq

def outState : ChatOutcome → SessionMap
  | .ok _ st => st
  | .serverError st => st

/-- Python truthiness of `request.session_id`: `None` and the empty string
are falsy. -/
def sidTruthy : Option String → Option String
  | some s => if s.isEmpty then none else some s
  | none => none

/-- The `/chat` endpoint of `app/main.py`.  `genResponse` stands for
`response_templates.generate_response` and `findNews` for
`news_retriever.find_relevant_news` (both total external collaborators whose
output the claims do not constrain); `rng` feeds `random.choice`; `now`
stands for `datetime.now().isoformat()` within the turn.

An empty or whitespace-only message raises `HTTPException(400)`; the blanket
`except Exception` catches it and then evaluates
`response_templates.get_error_response()` — but `ResponseTemplates` in
`app/templates.py` has no such method (`get_error_response` is a module-level
function there), so an `AttributeError` escapes the handler and the request
fails as a server error. -/
def newTurnCtx (st : SessionMap) (s : String) (cleaned : List Char)
    (response_text now : String) (result : NLPResult) : Ctx :=
  let merged := pmUpdateAll
    (pmUpdateAll []
      (match smLookup st s with
       | some c => (match c.last_parameters with | some lp => lp | none => [])
       | none => []))
    result.parameters
  ⟨some result.intent, some merged, some merged, none,
   (match smLookup st s with
    | some c => c.conversation_history
    | none => []) ++ [(cleaned, response_text, now)], now⟩

/-- The classify-extract-store path of `/chat` (everything after the greeting
and goodbye short-circuits). -/
def chatMain (genResponse : String → ParamMap → List String → ℚ → String)
    (findNews : String → ParamMap → List String)
    (ic : IntentClassifier) (ents : List Char → Entities) (now : String)
    (cleaned : List Char) (sid : Option String) (st : SessionMap) : ChatOutcome :=
  let context := match sid with
    | some s => smLookup st s
    | none => none
  let result := process_query ic ents cleaned context
  let response_text :=
    genResponse result.intent result.parameters result.missing_parameters result.confidence
  let related :=
    if (2 : ℚ) / 5 < result.confidence then
      some (findNews result.intent result.parameters)
    else none
  let st2 := match sid with
    | some s => smUpdate st s (newTurnCtx st s cleaned response_text now result)
    | none => st
  .ok ⟨response_text, result.intent, result.confidence, result.parameters,
       result.missing_parameters, result.needs_clarification, related, now⟩ st2

def chat (genResponse : String → ParamMap → List String → ℚ → String)
    (findNews : String → ParamMap → List String)
    (ic : IntentClassifier) (ents : List Char → Entities)
    (rng : Nat) (now : String)
    (message : List Char) (session_id : Option String)
    (st : SessionMap) : ChatOutcome :=
  if (pyStrip message).isEmpty then .serverError st
  else
    let cleaned := clean_text message
    if is_greeting cleaned then
      .ok ⟨pickResp greetingResponses rng, "general_info", 1, [], [], false, none, now⟩ st
    else if is_goodbye cleaned then
      .ok ⟨pickResp goodbyeResponses rng, "general_info", 1, [], [], false, none, now⟩ st
    else
      chatMain genResponse findNews ic ents now cleaned (sidTruthy session_id) st

def ic0 : IntentClassifier := ⟨false, fun _ => ("general_info", 1/2)⟩

def genR0 : String → ParamMap → List String → ℚ → String := fun _ _ _ _ => "ok"

def findN0 : String → ParamMap → List String := fun _ _ => []

/-- Sample context carrying a pending `year` question, as left by a
clarification turn. -/
def cYr : Ctx := ⟨some "grade_inquiry", some [], some [], some ["year"], [], "t"⟩

/-- Shape invariant of every context dict the `/chat` handler stores: no
`missing_parameters` key, and `last_parameters` and `all_parameters` are the
same duplicate-free slot map. -/
def ctxINV (c : Ctx) : Prop :=
  c.missing_parameters = none ∧
  ∃ m, c.last_parameters = some m ∧ c.all_parameters = some m ∧ (pmKeys m).Nodup

def stateINV (st : SessionMap) : Prop :=
  ∀ s c, smLookup st s = some c → ctxINV c

/-- Session stores reachable by a sequence of `/chat` turns from the empty
store, with the process-global collaborators fixed and the per-turn inputs
free. -/
inductive Reachable (genR : String → ParamMap → List String → ℚ → String)
    (findN : String → ParamMap → List String) (ic : IntentClassifier)
    (ents : List Char → Entities) : SessionMap → Prop where
  | start : Reachable genR findN ic ents []
  | step (st : SessionMap) (rng : Nat) (now : String) (msg : List Char)
      (sid : Option String) : Reachable genR findN ic ents st →
      Reachable genR findN ic ents (outState (chat genR findN ic ents rng now msg sid st))

def pm1 : ParamMap := [("department", ["computer science".toList])]

def ctx1 : Ctx :=
  ⟨some "general_info", some pm1, some pm1, none,
   [("computer science".toList, "ok", "t0")], "t0"⟩

def st1 : SessionMap :=
  outState (chat genR0 findN0 ic0 noEnts 0 "t0" ("computer science".toList) (some "s1") [])

/-- Well-formedness of a run: non-empty and uniformly of its kind. -/
def chunkOK : Chunk → Bool
  | .word w => !w.isEmpty && w.all isWordChar
  | .sep w => !w.isEmpty && w.all (fun c => !isWordChar c)

/-- Well-formedness of a run list relative to the kind of the preceding run
(`none` at the start): runs are well-formed and kinds alternate. -/
def chunksWF : Option Bool → List Chunk → Bool
  | _, [] => true
  | prev, ch :: rest =>
    chunkOK ch && (prev != some (chunkIsWord ch)) && chunksWF (some (chunkIsWord ch)) rest

def lastKind (prev : Option Bool) : List Chunk → Option Bool
  | [] => prev
  | ch :: rest => lastKind (some (chunkIsWord ch)) rest

/-- One abbreviation pass at the run level. -/
def expOne (a f : List Char) (L : List Chunk) : List Chunk :=
  concatMap (expandChunk a f) L

def memB (x : List Char) : List (List Char) → Bool
  | [] => false
  | y :: t => decide (y = x) || memB x t

/-- A run list none of whose word runs spells (case-insensitively) a word in
`bad`. -/
def chunkAvoid (bad : List (List Char)) : Chunk → Bool
  | .word w => !(memB (lcList w) bad)
  | .sep _ => true

/-- Collapse-normal scanner: every whitespace character is a blank and no two
are adjacent (state: previous character was whitespace). -/
def collN : Bool → List Char → Bool
  | _, [] => true
  | prevSp, c :: cs =>
    if pySpace c then (decide (c = ' ') && !prevSp && collN true cs) else collN false cs

def headB : List Char → Bool
  | [] => true
  | c :: _ => !pySpace c

def lastB : List Char → Bool
  | [] => true
  | [c] => !pySpace c
  | _ :: c :: cs => lastB (c :: cs)

/-- Whitespace-ness of the character preceding the position after `l` (the
state the collapse-normal scanner is in after reading `l`). -/
def spAfter (b : Bool) : List Char → Bool
  | [] => b
  | c :: cs => spAfter (pySpace c) cs

/-- Side conditions on the tail of the abbreviation table, relative to the
set `S` of abbreviations already processed: every expansion text is non-empty,
strip- and collapse-normal, parses into a well-formed run list ending in a
word run, and contains no earlier abbreviation nor the current one as a
maximal word run. -/
def goodTail : List (List Char) → List (List Char × List Char) → Bool
  | _, [] => true
  | S, (a, f) :: ps =>
    !f.isEmpty && headB f && lastB f && collN false f
    && chunksWF none (parseChunks f) && chunksWF (some false) (parseChunks f)
    && decide (lastKind none (parseChunks f) = some true)
    && (parseChunks f).all (chunkAvoid (S ++ [a]))
    && goodTail (S ++ [a]) ps

theorem pmLookup_pmUpdate_self (m : ParamMap) (k : String) (v : List (List Char)) :
    pmLookup (pmUpdate m k v) k = some v := by
  induction m with
  | nil => simp [pmUpdate, pmLookup]
  | cons e t ih =>
    obtain ⟨k1, v1⟩ := e
    by_cases h : k1 = k
    · subst h; simp [pmUpdate, pmLookup]
    · simp [pmUpdate, pmLookup, h, ih]

theorem pmLookup_pmUpdate_ne (m : ParamMap) (k k' : String) (v : List (List Char))
    (h : k' ≠ k) : pmLookup (pmUpdate m k' v) k = pmLookup m k := by
  induction m with
  | nil => simp [pmUpdate, pmLookup, h]
  | cons e t ih =>
    obtain ⟨k1, v1⟩ := e
    by_cases h2 : k1 = k'
    · subst h2; simp [pmUpdate, pmLookup, h]
    · by_cases h3 : k1 = k
      · subst h3; simp [pmUpdate, pmLookup, h2]
      · simp [pmUpdate, pmLookup, h2, h3, ih]

/-- C7: for every input string, including the empty string, an untrained
intent classifier's `predict` returns exactly the label `general_info` with
confidence 0.5, and does not fail (the model function is never consulted). -/
theorem claim_C7 (c : IntentClassifier) (text : List Char) (h : c.is_trained = false) :
    IntentClassifier.predict c text = ("general_info", 1/2) := by
  unfold IntentClassifier.predict
  rw [h]
  simp

theorem claim_C7_witness :
    ic0.is_trained = false ∧ IntentClassifier.predict ic0 ("".toList) = ("general_info", 1/2) :=
  ⟨rfl, claim_C7 ic0 ("".toList) rfl⟩

/-- C5: for every result of `process_query`, `missing_parameters` is exactly
the required slots of the resolved intent that are absent from the merged
parameters or mapped to an empty value, in the order of the required-slot
table, and `needs_clarification` holds iff that list is non-empty (the
missing-slots-only variant implemented at line 681). -/
theorem claim_C5 (ic : IntentClassifier) (ents : List Char → Entities)
    (text : List Char) (context : Option Ctx) :
    (process_query ic ents text context).missing_parameters
      = (get_required_parameters (process_query ic ents text context).intent).filter
          (fun s => !pmTruthy (process_query ic ents text context).parameters s)
    ∧ ((process_query ic ents text context).needs_clarification = true
        ↔ (process_query ic ents text context).missing_parameters ≠ []) := by
  refine ⟨rfl, ?_⟩
  unfold process_query
  cases ((get_required_parameters (match context with
    | some c => if followUpB (preprocess_text text) (some c) then pqFollowUp ents (preprocess_text text) c
                else pqFresh ic ents (preprocess_text text) (some c)
    | none => pqFresh ic ents (preprocess_text text) none).1).filter
      (fun s => !pmTruthy (match context with
        | some c => if followUpB (preprocess_text text) (some c) then pqFollowUp ents (preprocess_text text) c
                    else pqFresh ic ents (preprocess_text text) (some c)
        | none => pqFresh ic ents (preprocess_text text) none).2.2 s)) with
  | nil => simp
  | cons a t => simp

/-- C1: for every call to `process_query`, when a context is present with a
non-empty `missing_parameters` and the preprocessed text has at most 5 words
(the condition `followUpB`), the turn is a follow-up: the intent is the
context's `last_intent` (defaulting to `general_info`) and the confidence is
the fixed 0.8; otherwise intent and confidence are exactly the classifier's
`predict` on the preprocessed text.  In particular, with
`missing_parameters = ["year"]` and text `"2024"` the result reuses
`last_intent` and maps `"year"` to `["2024"]`. -/
theorem claim_C1 :
    (∀ (ic : IntentClassifier) (ents : List Char → Entities) (text : List Char)
        (context : Option Ctx),
      (∀ c, context = some c → followUpB (preprocess_text text) context = true →
        (process_query ic ents text context).intent = c.last_intent.getD "general_info" ∧
        (process_query ic ents text context).confidence = 4 / 5) ∧
      (followUpB (preprocess_text text) context = false →
        (process_query ic ents text context).intent
            = (IntentClassifier.predict ic (preprocess_text text)).1 ∧
        (process_query ic ents text context).confidence
            = (IntentClassifier.predict ic (preprocess_text text)).2))
    ∧ (∀ (ic : IntentClassifier) (ents : List Char → Entities) (li : Option String)
        (lp ap : Option ParamMap) (hist : List (List Char × String × String)) (ts : String),
      (process_query ic ents ("2024".toList)
          (some ⟨li, lp, ap, some ["year"], hist, ts⟩)).intent = li.getD "general_info" ∧
      (process_query ic ents ("2024".toList)
          (some ⟨li, lp, ap, some ["year"], hist, ts⟩)).confidence = 4 / 5 ∧
      pmLookup (process_query ic ents ("2024".toList)
          (some ⟨li, lp, ap, some ["year"], hist, ts⟩)).parameters "year"
          = some ["2024".toList]) := by
  constructor
  · intro ic ents text context
    constructor
    · intro c hc hf
      subst hc
      unfold process_query
      simp only [hf]
      exact ⟨rfl, rfl⟩
    · intro hf
      cases context with
      | none =>
        unfold process_query
        exact ⟨rfl, rfl⟩
      | some c =>
        unfold process_query
        simp only [hf]
        exact ⟨rfl, rfl⟩
  · intro ic ents li lp ap hist ts
    refine ⟨rfl, rfl, ?_⟩
    cases ap with
    | none => rfl
    | some m =>
      cases m with
      | nil => rfl
      | cons e t =>
        show pmLookup (pmUpdate (e :: t) "year" ["2024".toList]) "year" = some ["2024".toList]
        exact pmLookup_pmUpdate_self _ _ _

theorem claim_C1_witness :
    followUpB (preprocess_text ("2024".toList)) (some cYr) = true ∧
    (process_query ic0 noEnts ("2024".toList) (some cYr)).intent = "grade_inquiry" ∧
    (process_query ic0 noEnts ("2024".toList) (some cYr)).confidence = 4 / 5 ∧
    pmLookup (process_query ic0 noEnts ("2024".toList) (some cYr)).parameters "year"
        = some ["2024".toList] ∧
    (process_query ic0 noEnts ("hello there my good friend how".toList) none).intent
        = "general_info" := by
  have h2 := claim_C1.2 ic0 noEnts (some "grade_inquiry") (some []) (some []) [] "t"
  have h1 := (claim_C1.1 ic0 noEnts ("hello there my good friend how".toList) none).2 rfl
  exact ⟨by decide, h2.1, h2.2.1, h2.2.2, h1.1⟩

theorem pmKeys_pmUpdate_mem (m : ParamMap) (k k' : String) (v : List (List Char))
    (h : k' ∈ pmKeys (pmUpdate m k v)) : k' = k ∨ k' ∈ pmKeys m := by
  induction m with
  | nil =>
    have h2 : k' ∈ [k] := h
    exact Or.inl (List.mem_singleton.mp h2)
  | cons e t ih =>
    obtain ⟨k1, v1⟩ := e
    by_cases h2 : k1 = k
    · subst h2
      have heq : pmUpdate ((k1, v1) :: t) k1 v = (k1, v) :: t := by simp [pmUpdate]
      rw [heq] at h
      have h3 : k' ∈ k1 :: pmKeys t := h
      rcases List.mem_cons.mp h3 with h4 | h4
      · exact Or.inl h4
      · exact Or.inr (List.mem_cons.mpr (Or.inr h4))
    · have heq : pmUpdate ((k1, v1) :: t) k v = (k1, v1) :: pmUpdate t k v := by
        simp [pmUpdate, h2]
      rw [heq] at h
      have h3 : k' ∈ k1 :: pmKeys (pmUpdate t k v) := h
      rcases List.mem_cons.mp h3 with h4 | h4
      · exact Or.inr (List.mem_cons.mpr (Or.inl h4))
      · rcases ih h4 with h5 | h5
        · exact Or.inl h5
        · exact Or.inr (List.mem_cons.mpr (Or.inr h5))

theorem ctxAdd_keys_mem (missing : List String) (name k : String)
    (o : Option (List Char)) (p : ParamMap)
    (h : k ∈ pmKeys (ctxAdd missing name o p)) :
    (k = name ∧ name ∈ missing) ∨ k ∈ pmKeys p := by
  cases o with
  | none => exact Or.inr h
  | some s =>
    have h' : k ∈ pmKeys
        (if (!s.isEmpty && missing.contains name) = true then pmUpdate p name [s] else p) := h
    by_cases hc : (!s.isEmpty && missing.contains name) = true
    · rw [if_pos hc] at h'
      rcases pmKeys_pmUpdate_mem _ _ _ _ h' with h2 | h2
      · refine Or.inl ⟨h2, ?_⟩
        have h3 := (Bool.and_eq_true _ _).mp hc
        exact List.elem_iff.mp h3.2
      · exact Or.inr h2
    · rw [if_neg hc] at h'
      exact Or.inr h'

/-- C2 counterexample: with a context whose missing list is `["year"]` and
text `"computer science"`, the context-aware block extracts nothing, the call
falls through to the regular sweep, and the returned mapping contains the
slot `department`, which is not in the missing list — refuting the claim that
an extracted value for a non-missing slot type never appears in the result of
that extraction call. -/
theorem claim_C2_cex :
    cYr.missing_parameters = some ["year"] ∧
    pmLookup (extract_parameters noEnts ("computer science".toList) "general_info" (some cYr))
        "department" = some ["computer science".toList] ∧
    "department" ∉ ["year"] :=
  ⟨rfl, by decide, by decide⟩

/-- C2 amended: inside the context-aware block the restriction does hold —
every key produced by the block is in the missing list — and whenever the
block fills at least one slot and at least as many slots as are missing, the
extraction call returns exactly the block's output, so every key of the
result is in the missing list.  When the block fills fewer slots than are
missing, the call falls through to the regular sweep, which can also add
non-missing slots. -/
theorem claim_C2_amended :
    (∀ (text tl : List Char) (missing : List String) (k : String),
      k ∈ pmKeys (contextExtract text tl missing) → k ∈ missing)
    ∧ (∀ (ents : List Char → Entities) (text : List Char) (intent : String)
        (li : Option String) (lp ap : Option ParamMap)
        (hist : List (List Char × String × String)) (ts : String) (missing : List String),
        missing ≠ [] →
        contextExtract text (lcList text) missing ≠ [] →
        missing.length ≤ (contextExtract text (lcList text) missing).length →
        extract_parameters ents text intent (some ⟨li, lp, ap, some missing, hist, ts⟩)
          = contextExtract text (lcList text) missing) := by
  constructor
  · intro text tl missing k h
    unfold contextExtract at h
    rcases ctxAdd_keys_mem _ _ _ _ _ h with ⟨he, hm⟩ | h
    · exact he ▸ hm
    rcases ctxAdd_keys_mem _ _ _ _ _ h with ⟨he, hm⟩ | h
    · exact he ▸ hm
    rcases ctxAdd_keys_mem _ _ _ _ _ h with ⟨he, hm⟩ | h
    · exact he ▸ hm
    rcases ctxAdd_keys_mem _ _ _ _ _ h with ⟨he, hm⟩ | h
    · exact he ▸ hm
    rcases ctxAdd_keys_mem _ _ _ _ _ h with ⟨he, hm⟩ | h
    · exact he ▸ hm
    · exact absurd h (by simp [pmKeys])
  · intro ents text intent li lp ap hist ts missing hne hepne hlen
    cases missing with
    | nil => exact absurd rfl hne
    | cons m ms =>
      show (if (List.isEmpty (m :: ms)) = true then
              regularSweep ents text (lcList text) intent []
            else
              if (contextExtract text (lcList text) (m :: ms)).isEmpty = true then
                regularSweep ents text (lcList text) intent []
              else
                if (m :: ms).length ≤ (contextExtract text (lcList text) (m :: ms)).length then
                  contextExtract text (lcList text) (m :: ms)
                else
                  regularSweep ents text (lcList text) intent
                    (contextExtract text (lcList text) (m :: ms)))
          = contextExtract text (lcList text) (m :: ms)
      rw [if_neg (by simp)]
      rw [if_neg (by simp [List.isEmpty_iff]; exact hepne)]
      rw [if_pos hlen]

theorem claim_C2_amended_witness :
    contextExtract ("2024".toList) (lcList ("2024".toList)) ["year"] ≠ [] ∧
    (["year"] : List String).length
        ≤ (contextExtract ("2024".toList) (lcList ("2024".toList)) ["year"]).length ∧
    extract_parameters noEnts ("2024".toList) "grade_inquiry"
        (some ⟨some "grade_inquiry", some [], some [], some ["year"], [], "t"⟩)
      = contextExtract ("2024".toList) (lcList ("2024".toList)) ["year"] ∧
    ∀ k, k ∈ pmKeys (contextExtract ("2024".toList) (lcList ("2024".toList)) ["year"]) →
      k ∈ ["year"] :=
  ⟨by decide, by decide,
   claim_C2_amended.2 noEnts ("2024".toList) "grade_inquiry" (some "grade_inquiry")
     (some []) (some []) [] "t" ["year"] (by decide) (by decide) (by decide),
   fun k h => claim_C2_amended.1 ("2024".toList) (lcList ("2024".toList)) ["year"] k h⟩

/-- C8 counterexample: `_extract_year_from_answer` returns `"2050"` — a
numeric token outside [2000, currentYear+2] (the code hard-codes
`current_year = 2024`) — both directly and through `extract_parameters`,
refuting the claimed range restriction. -/
theorem claim_C8_cex :
    extract_year_from_answer ("2050".toList) = some ("2050".toList) ∧
    pmLookup (extract_parameters noEnts ("2050".toList) "general_info" none) "year"
        = some ["2050".toList] ∧
    2024 + 2 < digitsToNat ("2050".toList) :=
  ⟨by decide, by decide, by decide⟩

/-- C8 amended: the first pattern of the year parser accepts any token of the
form `20` followed by two digits with no range check (so `"2050"` is
returned, while `"1999"` is rejected by every branch, including the regular
sweep); the ordinal expression has the form `N(st|nd|rd|th)? year` and
resolves to `2024 - 4 + N`; and every returned value comes either from the
unchecked `20dd` pattern, from that ordinal formula, or from the 4-digit
fallback restricted to [2020, 2030]. -/
theorem claim_C8_amended :
    extract_year_from_answer ("1999".toList) = none ∧
    extract_year_from_answer ("2050".toList) = some ("2050".toList) ∧
    extract_year_from_answer ("2nd year".toList) = some ("2022".toList) ∧
    extract_year_from_answer ("3rd year".toList) = some ("2023".toList) ∧
    yearsOf (lcList ("1999".toList)) = [] ∧
    (∀ (t s : List Char), extract_year_from_answer t = some s →
      (∃ caps, research false year4RE t = some caps ∧ s = capGet caps 1) ∨
      (∃ caps, research true yearOrdRE t = some caps
          ∧ s = natToChars (2024 - 4 + digitsToNat (capGet caps 1))) ∨
      (∃ n, 2020 ≤ n ∧ n ≤ 2030 ∧ s = natToChars n)) := by
  refine ⟨by decide, by decide, by decide, by decide, by decide, ?_⟩
  intro t s h
  unfold extract_year_from_answer at h
  cases h1 : research false year4RE t with
  | some caps =>
    rw [h1] at h
    simp only [Option.some.injEq] at h
    exact Or.inl ⟨caps, rfl, h.symm⟩
  | none =>
    rw [h1] at h
    cases h2 : research true yearOrdRE t with
    | some caps =>
      rw [h2] at h
      simp only [Option.some.injEq] at h
      exact Or.inr (Or.inl ⟨caps, rfl, h.symm⟩)
    | none =>
      rw [h2] at h
      cases h3 : research false digits4RE t with
      | some caps =>
        rw [h3] at h
        by_cases hr : 2020 ≤ digitsToNat (capGet caps 1) ∧ digitsToNat (capGet caps 1) ≤ 2030
        · have h4 : some (natToChars (digitsToNat (capGet caps 1))) = some s := by
            rw [← h]
            simp [hr]
          simp only [Option.some.injEq] at h4
          exact Or.inr (Or.inr ⟨digitsToNat (capGet caps 1), hr.1, hr.2, h4.symm⟩)
        · have h4 : (none : Option (List Char)) = some s := by
            rw [← h]
            simp [hr]
          exact absurd h4 (by simp)
      | none =>
        rw [h3] at h
        exact absurd h (by simp)

theorem claim_C8_amended_witness :
    extract_year_from_answer ("2024".toList) = some ("2024".toList) ∧
    ((∃ caps, research false year4RE ("2024".toList) = some caps
        ∧ ("2024".toList) = capGet caps 1) ∨
     (∃ caps, research true yearOrdRE ("2024".toList) = some caps
        ∧ ("2024".toList) = natToChars (2024 - 4 + digitsToNat (capGet caps 1))) ∨
     (∃ n, 2020 ≤ n ∧ n ≤ 2030 ∧ ("2024".toList) = natToChars n)) :=
  ⟨by decide, claim_C8_amended.2.2.2.2.2 ("2024".toList) ("2024".toList) (by decide)⟩

/-- C6 counterexample: an empty or whitespace-only `/chat` message is not
absorbed locally — the handler raises `HTTPException(400)`, the blanket
`except` then calls the non-existent `ResponseTemplates.get_error_response`,
and the request fails as a server error instead of a normal turn result. -/
theorem claim_C6_cex :
    chat genR0 findN0 ic0 noEnts 0 "t" ("   ".toList) (some "s") [] = .serverError [] ∧
    chat genR0 findN0 ic0 noEnts 0 "t" ("".toList) (some "s") [] = .serverError [] :=
  ⟨by decide, by decide⟩

/-- C6 amended: every `/chat` request whose message is empty or
whitespace-only is surfaced as an error: the handler raises
`HTTPException(400)`, the blanket `except Exception` catches it but then
calls `response_templates.get_error_response()`, which `ResponseTemplates`
does not define, so the `AttributeError` escapes and the request fails as an
HTTP 500 server error with the session store unchanged; it is never a normal
turn result. -/
theorem claim_C6_amended (genR : String → ParamMap → List String → ℚ → String)
    (findN : String → ParamMap → List String) (ic : IntentClassifier)
    (ents : List Char → Entities) (rng : Nat) (now : String) (msg : List Char)
    (sid : Option String) (st : SessionMap)
    (h : (pyStrip msg).isEmpty = true) :
    chat genR findN ic ents rng now msg sid st = .serverError st := by
  unfold chat
  rw [if_pos h]

theorem claim_C6_amended_witness :
    (pyStrip ("  ".toList)).isEmpty = true ∧
    chat genR0 findN0 ic0 noEnts 3 "now" ("  ".toList) none [("s", cYr)]
      = .serverError [("s", cYr)] :=
  ⟨by decide,
   claim_C6_amended genR0 findN0 ic0 noEnts 3 "now" ("  ".toList) none [("s", cYr)] (by decide)⟩

theorem pickResp_mem (l : List String) (rng : Nat) (h : l ≠ []) : pickResp l rng ∈ l := by
  unfold pickResp
  have hlen : 0 < l.length := List.length_pos.mpr h
  have hlt : rng % l.length < l.length := Nat.mod_lt _ hlen
  rw [List.getD_eq_getElem?_getD, List.getElem?_eq_getElem hlt]
  exact List.getElem_mem hlt

theorem clean_text_of_strip_empty (msg : List Char) (h : (pyStrip msg).isEmpty = true) :
    clean_text msg = [] := by
  unfold clean_text
  by_cases hm : msg.isEmpty = true
  · rw [if_pos hm]
  · rw [if_neg hm]
    unfold cleanWS
    rw [List.isEmpty_iff.mp h]
    rfl

/-- C10: whenever the cleaned message contains a greeting or goodbye keyword
as a substring anywhere (the handler lowercases and uses Python's `in`, so
also inside longer words such as `hi` inside `which`), the `/chat` handler
short-circuits before classification and extraction: it returns a canned
greeting or goodbye response with intent `general_info`, confidence 1.0,
empty parameters, empty missing list and `needs_clarification` false, leaves
the session store unchanged, and produces the same response whatever the
session store contains (it neither reads nor updates the context). -/
theorem claim_C10 (genR : String → ParamMap → List String → ℚ → String)
    (findN : String → ParamMap → List String) (ic : IntentClassifier)
    (ents : List Char → Entities) (rng : Nat) (now : String) (msg : List Char)
    (sid : Option String) (st : SessionMap)
    (h : (is_greeting (clean_text msg) || is_goodbye (clean_text msg)) = true) :
    ∃ resp, chat genR findN ic ents rng now msg sid st = .ok resp st ∧
      resp.intent = "general_info" ∧ resp.confidence = 1 ∧ resp.parameters = [] ∧
      resp.missing_parameters = [] ∧ resp.needs_clarification = false ∧
      (resp.response ∈ greetingResponses ∨ resp.response ∈ goodbyeResponses) ∧
      (∀ st2, chat genR findN ic ents rng now msg sid st2 = .ok resp st2) := by
  have hstrip : (pyStrip msg).isEmpty = false := by
    by_contra hc
    have h0 : (pyStrip msg).isEmpty = true := by
      cases h1 : (pyStrip msg).isEmpty
      · exact absurd h1 hc
      · rfl
    rw [clean_text_of_strip_empty msg h0] at h
    exact absurd h (by decide)
  cases hg : is_greeting (clean_text msg) with
  | true =>
    refine ⟨⟨pickResp greetingResponses rng, "general_info", 1, [], [], false, none, now⟩,
      ?_, rfl, rfl, rfl, rfl, rfl,
      Or.inl (pickResp_mem greetingResponses rng (by decide)), ?_⟩
    · unfold chat
      rw [if_neg (by simp [hstrip]), if_pos hg]
    · intro st2
      unfold chat
      rw [if_neg (by simp [hstrip]), if_pos hg]
  | false =>
    have hb : is_goodbye (clean_text msg) = true := by
      rw [hg] at h
      simpa using h
    refine ⟨⟨pickResp goodbyeResponses rng, "general_info", 1, [], [], false, none, now⟩,
      ?_, rfl, rfl, rfl, rfl, rfl,
      Or.inr (pickResp_mem goodbyeResponses rng (by decide)), ?_⟩
    · unfold chat
      rw [if_neg (by simp [hstrip]), if_neg (by simp [hg]), if_pos hb]
    · intro st2
      unfold chat
      rw [if_neg (by simp [hstrip]), if_neg (by simp [hg]), if_pos hb]

theorem claim_C10_witness :
    (is_greeting (clean_text ("which course should I take".toList))
      || is_goodbye (clean_text ("which course should I take".toList))) = true ∧
    (∃ resp, chat genR0 findN0 ic0 noEnts 7 "t" ("which course should I take".toList)
        (some "s") [("s", cYr)] = .ok resp [("s", cYr)] ∧
      resp.intent = "general_info" ∧ resp.confidence = 1 ∧ resp.parameters = [] ∧
      resp.missing_parameters = [] ∧ resp.needs_clarification = false ∧
      (resp.response ∈ greetingResponses ∨ resp.response ∈ goodbyeResponses) ∧
      (∀ st2, chat genR0 findN0 ic0 noEnts 7 "t" ("which course should I take".toList)
          (some "s") st2 = .ok resp st2)) :=
  ⟨by decide,
   claim_C10 genR0 findN0 ic0 noEnts 7 "t" ("which course should I take".toList)
     (some "s") [("s", cYr)] (by decide)⟩

theorem smLookup_smUpdate_self (st : SessionMap) (s : String) (c : Ctx) :
    smLookup (smUpdate st s c) s = some c := by
  induction st with
  | nil => simp [smUpdate, smLookup]
  | cons e t ih =>
    obtain ⟨k1, c1⟩ := e
    by_cases h : k1 = s
    · subst h
      simp [smUpdate, smLookup]
    · simp [smUpdate, smLookup, h, ih]

theorem smLookup_smUpdate_ne (st : SessionMap) (s s' : String) (c : Ctx)
    (h : s' ≠ s) : smLookup (smUpdate st s' c) s = smLookup st s := by
  induction st with
  | nil => simp [smUpdate, smLookup, h]
  | cons e t ih =>
    obtain ⟨k1, c1⟩ := e
    by_cases h2 : k1 = s'
    · subst h2
      simp [smUpdate, smLookup, h]
    · by_cases h3 : k1 = s
      · subst h3
        simp [smUpdate, smLookup, h2]
      · simp [smUpdate, smLookup, h2, h3, ih]

/-- C4: any session entry after a `/chat` turn is either exactly what it was
before the turn, or the context dict the handler itself built — which has
`last_intent`, `last_parameters` and `all_parameters` set and no
`missing_parameters` key.  Consequently the follow-up condition of
`process_query` is false on every handler-stored context and such a turn
always runs full intent classification: intent and confidence are the
classifier's `predict` on the preprocessed text. -/
theorem claim_C4 (genR : String → ParamMap → List String → ℚ → String)
    (findN : String → ParamMap → List String) (ic : IntentClassifier)
    (ents : List Char → Entities) (rng : Nat) (now : String) (msg : List Char)
    (sid : Option String) (st : SessionMap) (s : String) :
    smLookup (outState (chat genR findN ic ents rng now msg sid st)) s = smLookup st s ∨
    (∃ c', smLookup (outState (chat genR findN ic ents rng now msg sid st)) s = some c' ∧
      c'.missing_parameters = none ∧ c'.last_intent.isSome = true ∧
      c'.last_parameters.isSome = true ∧ c'.all_parameters.isSome = true ∧
      (∀ t, followUpB t (some c') = false) ∧
      (∀ (ic2 : IntentClassifier) (ents2 : List Char → Entities) (t : List Char),
        (process_query ic2 ents2 t (some c')).intent
            = (IntentClassifier.predict ic2 (preprocess_text t)).1 ∧
        (process_query ic2 ents2 t (some c')).confidence
            = (IntentClassifier.predict ic2 (preprocess_text t)).2)) := by
  by_cases h1 : (pyStrip msg).isEmpty = true
  · left
    unfold chat
    rw [if_pos h1]
    rfl
  · unfold chat
    rw [if_neg h1]
    by_cases hg : is_greeting (clean_text msg) = true
    · left
      rw [if_pos hg]
      rfl
    · rw [if_neg hg]
      by_cases hb : is_goodbye (clean_text msg) = true
      · left
        rw [if_pos hb]
        rfl
      · rw [if_neg hb]
        unfold chatMain
        cases hsid : sidTruthy sid with
        | none => left; rfl
        | some s0 =>
          by_cases hs : s0 = s
          · subst hs
            right
            refine ⟨newTurnCtx st s0 (clean_text msg)
                (genR (process_query ic ents (clean_text msg) (smLookup st s0)).intent
                  (process_query ic ents (clean_text msg) (smLookup st s0)).parameters
                  (process_query ic ents (clean_text msg) (smLookup st s0)).missing_parameters
                  (process_query ic ents (clean_text msg) (smLookup st s0)).confidence)
                now (process_query ic ents (clean_text msg) (smLookup st s0)),
              ?_, rfl, rfl, rfl, rfl, fun t => rfl, fun ic2 ents2 t => ⟨rfl, rfl⟩⟩
            show smLookup (smUpdate st s0 _) s0 = some _
            exact smLookup_smUpdate_self _ _ _
          · left
            show smLookup (smUpdate st s0 _) s = smLookup st s
            exact smLookup_smUpdate_ne _ _ _ _ hs

theorem pmLookup_some_mem (m : ParamMap) (k : String) (v : List (List Char))
    (h : pmLookup m k = some v) : k ∈ pmKeys m := by
  induction m with
  | nil => simp [pmLookup] at h
  | cons e t ih =>
    obtain ⟨k1, v1⟩ := e
    by_cases h2 : k1 = k
    · subst h2
      exact List.mem_cons.mpr (Or.inl rfl)
    · have h3 : pmLookup t k = some v := by
        have h4 : (if k1 = k then some v1 else pmLookup t k) = some v := h
        rw [if_neg h2] at h4
        exact h4
      exact List.mem_cons.mpr (Or.inr (ih h3))

theorem pmLookup_not_mem (m : ParamMap) (k : String) (h : k ∉ pmKeys m) :
    pmLookup m k = none := by
  induction m with
  | nil => rfl
  | cons e t ih =>
    obtain ⟨k1, v1⟩ := e
    have h1 : k1 ≠ k := fun he => h (List.mem_cons.mpr (Or.inl he.symm))
    have h2 : k ∉ pmKeys t := fun he => h (List.mem_cons.mpr (Or.inr he))
    show (if k1 = k then some v1 else pmLookup t k) = none
    rw [if_neg h1]
    exact ih h2

theorem pmKeys_pmUpdate (m : ParamMap) (k : String) (v : List (List Char)) :
    pmKeys (pmUpdate m k v) = if k ∈ pmKeys m then pmKeys m else pmKeys m ++ [k] := by
  induction m with
  | nil => simp [pmUpdate, pmKeys]
  | cons e t ih =>
    obtain ⟨k1, v1⟩ := e
    by_cases h2 : k1 = k
    · subst h2
      have hm : k1 ∈ pmKeys ((k1, v1) :: t) := List.mem_cons.mpr (Or.inl rfl)
      have hupd : pmUpdate ((k1, v1) :: t) k1 v = (k1, v) :: t := by simp [pmUpdate]
      rw [if_pos hm, hupd]
      rfl
    · have hshow : pmKeys (pmUpdate ((k1, v1) :: t) k v)
          = k1 :: pmKeys (pmUpdate t k v) := by
        simp [pmUpdate, h2, pmKeys]
      rw [hshow, ih]
      by_cases h3 : k ∈ pmKeys t
      · rw [if_pos h3, if_pos (by exact List.mem_cons.mpr (Or.inr h3))]
        rfl
      · have h4 : k ∉ pmKeys ((k1, v1) :: t) := by
          intro hc
          rcases List.mem_cons.mp hc with hc | hc
          · exact h2 (hc.symm)
          · exact h3 hc
        rw [if_neg h3, if_neg h4]
        rfl

theorem pmUpdate_nodup (m : ParamMap) (k : String) (v : List (List Char))
    (h : (pmKeys m).Nodup) : (pmKeys (pmUpdate m k v)).Nodup := by
  rw [pmKeys_pmUpdate]
  by_cases h2 : k ∈ pmKeys m
  · rw [if_pos h2]; exact h
  · rw [if_neg h2]
    rw [List.nodup_append]
    exact ⟨h, List.nodup_singleton _, by simpa using fun hc => h2 hc⟩

theorem swAdd_nodup (k : String) (vals : List (List Char)) (p : ParamMap)
    (h : (pmKeys p).Nodup) : (pmKeys (swAdd k vals p)).Nodup := by
  unfold swAdd
  by_cases h2 : vals.isEmpty = true
  · rw [if_pos h2]; exact h
  · rw [if_neg h2]; exact pmUpdate_nodup _ _ _ h

theorem swAddDedup_nodup (k : String) (vals : List (List Char)) (p : ParamMap)
    (h : (pmKeys p).Nodup) : (pmKeys (swAddDedup k vals p)).Nodup := by
  unfold swAddDedup
  by_cases h2 : vals.isEmpty = true
  · rw [if_pos h2]; exact h
  · rw [if_neg h2]; exact pmUpdate_nodup _ _ _ h

theorem ctxAdd_nodup (missing : List String) (name : String) (o : Option (List Char))
    (p : ParamMap) (h : (pmKeys p).Nodup) : (pmKeys (ctxAdd missing name o p)).Nodup := by
  unfold ctxAdd
  cases o with
  | none => exact h
  | some s =>
    by_cases h2 : (!s.isEmpty && missing.contains name) = true
    · show (pmKeys (if (!s.isEmpty && missing.contains name) = true
          then pmUpdate p name [s] else p)).Nodup
      rw [if_pos h2]
      exact pmUpdate_nodup _ _ _ h
    · show (pmKeys (if (!s.isEmpty && missing.contains name) = true
          then pmUpdate p name [s] else p)).Nodup
      rw [if_neg h2]
      exact h

theorem sweepBase_nodup (ents : List Char → Entities) (text tl : List Char)
    (p0 : ParamMap) (h : (pmKeys p0).Nodup) :
    (pmKeys (sweepBase ents text tl p0)).Nodup := by
  unfold sweepBase
  apply swAdd_nodup
  apply swAdd_nodup
  apply swAdd_nodup
  apply swAddDedup_nodup
  apply swAddDedup_nodup
  apply swAddDedup_nodup
  apply swAddDedup_nodup
  apply swAddDedup_nodup
  apply swAddDedup_nodup
  exact swAddDedup_nodup _ _ _ h

theorem sweep_nodup (ents : List Char → Entities) (text tl : List Char) (intent : String)
    (p0 : ParamMap) (h : (pmKeys p0).Nodup) :
    (pmKeys (regularSweep ents text tl intent p0)).Nodup := by
  unfold regularSweep
  split_ifs
  · exact swAdd_nodup _ _ _ (sweepBase_nodup ents text tl p0 h)
  · exact swAdd_nodup _ _ _ (sweepBase_nodup ents text tl p0 h)
  · exact sweepBase_nodup ents text tl p0 h

theorem ctxExtract_nodup (text tl : List Char) (missing : List String) :
    (pmKeys (contextExtract text tl missing)).Nodup := by
  unfold contextExtract
  exact ctxAdd_nodup _ _ _ _
    (ctxAdd_nodup _ _ _ _
      (ctxAdd_nodup _ _ _ _
        (ctxAdd_nodup _ _ _ _
          (ctxAdd_nodup _ _ _ _ List.nodup_nil))))

theorem extract_nodup (ents : List Char → Entities) (text : List Char) (intent : String)
    (context : Option Ctx) : (pmKeys (extract_parameters ents text intent context)).Nodup := by
  cases context with
  | none => exact sweep_nodup _ _ _ _ _ List.nodup_nil
  | some c =>
    obtain ⟨li, lp, ap, mp, hist, ts⟩ := c
    cases mp with
    | none => exact sweep_nodup _ _ _ _ _ List.nodup_nil
    | some missing =>
      show (pmKeys (if missing.isEmpty = true then
          regularSweep ents text (lcList text) intent []
        else if (contextExtract text (lcList text) missing).isEmpty = true then
          regularSweep ents text (lcList text) intent []
        else if missing.length ≤ (contextExtract text (lcList text) missing).length then
          contextExtract text (lcList text) missing
        else
          regularSweep ents text (lcList text) intent
            (contextExtract text (lcList text) missing))).Nodup
      split_ifs
      · exact sweep_nodup _ _ _ _ _ List.nodup_nil
      · exact sweep_nodup _ _ _ _ _ List.nodup_nil
      · exact ctxExtract_nodup _ _ _
      · exact sweep_nodup _ _ _ _ _ (ctxExtract_nodup _ _ _)

theorem pmLookup_pmUpdate (m : ParamMap) (k k' : String) (v : List (List Char)) :
    pmLookup (pmUpdate m k' v) k = if k' = k then some v else pmLookup m k := by
  by_cases h : k' = k
  · rw [if_pos h, h]
    exact pmLookup_pmUpdate_self m k v
  · rw [if_neg h]
    exact pmLookup_pmUpdate_ne m k k' v h

theorem pmLookup_pmUpdateAll (new : ParamMap) (hnd : (pmKeys new).Nodup) :
    ∀ (base : ParamMap) (k : String),
      pmLookup (pmUpdateAll base new) k
        = match pmLookup new k with
          | some v => some v
          | none => pmLookup base k := by
  induction new with
  | nil => intro base k; rfl
  | cons e t ih =>
    obtain ⟨k1, v1⟩ := e
    have h0 : (k1 :: pmKeys t).Nodup := hnd
    have hnotin : k1 ∉ pmKeys t := (List.nodup_cons.mp h0).1
    have hndt : (pmKeys t).Nodup := (List.nodup_cons.mp h0).2
    intro base k
    have hstep : pmUpdateAll base ((k1, v1) :: t) = pmUpdateAll (pmUpdate base k1 v1) t := rfl
    rw [hstep, ih hndt]
    by_cases h : k1 = k
    · subst h
      rw [pmLookup_not_mem t k1 hnotin]
      have hh : pmLookup ((k1, v1) :: t) k1 = some v1 := by simp [pmLookup]
      rw [hh]
      exact pmLookup_pmUpdate_self base k1 v1
    · have h2 : pmLookup ((k1, v1) :: t) k = pmLookup t k := by simp [pmLookup, h]
      rw [h2]
      cases pmLookup t k with
      | some v => rfl
      | none =>
        show pmLookup (pmUpdate base k1 v1) k = pmLookup base k
        exact pmLookup_pmUpdate_ne base k k1 v1 h

theorem pmLookup_pmMergeTruthy (new : ParamMap) (hnd : (pmKeys new).Nodup) :
    ∀ (base : ParamMap) (k : String),
      pmLookup (pmMergeTruthy base new) k
        = match pmLookup new k with
          | some v => if v.isEmpty then pmLookup base k else some v
          | none => pmLookup base k := by
  induction new with
  | nil => intro base k; rfl
  | cons e t ih =>
    obtain ⟨k1, v1⟩ := e
    have h0 : (k1 :: pmKeys t).Nodup := hnd
    have hnotin : k1 ∉ pmKeys t := (List.nodup_cons.mp h0).1
    have hndt : (pmKeys t).Nodup := (List.nodup_cons.mp h0).2
    intro base k
    have hstep : pmMergeTruthy base ((k1, v1) :: t)
        = pmMergeTruthy (if v1.isEmpty then base else pmUpdate base k1 v1) t := rfl
    rw [hstep, ih hndt]
    by_cases h : k1 = k
    · subst h
      rw [pmLookup_not_mem t k1 hnotin]
      have hh : pmLookup ((k1, v1) :: t) k1 = some v1 := by simp [pmLookup]
      rw [hh]
      show pmLookup (if v1.isEmpty = true then base else pmUpdate base k1 v1) k1
          = if v1.isEmpty = true then pmLookup base k1 else some v1
      by_cases hv : v1.isEmpty = true
      · rw [if_pos hv, if_pos hv]
      · rw [if_neg hv, if_neg hv]
        exact pmLookup_pmUpdate_self base k1 v1
    · have h2 : pmLookup ((k1, v1) :: t) k = pmLookup t k := by simp [pmLookup, h]
      rw [h2]
      have hbase : pmLookup (if v1.isEmpty = true then base else pmUpdate base k1 v1) k
          = pmLookup base k := by
        by_cases hv : v1.isEmpty = true
        · rw [if_pos hv]
        · rw [if_neg hv]
          exact pmLookup_pmUpdate_ne base k k1 v1 h
      cases pmLookup t k with
      | some v =>
        show (if v.isEmpty = true then
            pmLookup (if v1.isEmpty = true then base else pmUpdate base k1 v1) k else some v)
            = if v.isEmpty = true then pmLookup base k else some v
        rw [hbase]
      | none =>
        show pmLookup (if v1.isEmpty = true then base else pmUpdate base k1 v1) k
            = pmLookup base k
        exact hbase

theorem pmUpdateAll_nodup (new : ParamMap) :
    ∀ base : ParamMap, (pmKeys base).Nodup → (pmKeys (pmUpdateAll base new)).Nodup := by
  induction new with
  | nil => intro base h; exact h
  | cons e t ih =>
    intro base h
    exact ih (pmUpdate base e.1 e.2) (pmUpdate_nodup base e.1 e.2 h)

theorem pmMergeTruthy_nodup (new : ParamMap) :
    ∀ base : ParamMap, (pmKeys base).Nodup → (pmKeys (pmMergeTruthy base new)).Nodup := by
  induction new with
  | nil => intro base h; exact h
  | cons e t ih =>
    intro base h
    show (pmKeys (pmMergeTruthy (if e.2.isEmpty then base else pmUpdate base e.1 e.2) t)).Nodup
    by_cases hv : e.2.isEmpty = true
    · rw [if_pos hv]
      exact ih base h
    · rw [if_neg hv]
      exact ih _ (pmUpdate_nodup base e.1 e.2 h)

/-- Either a `/chat` turn leaves a session entry untouched, or the entry is
the context dict built by `newTurnCtx` on the classify-extract-store path. -/
theorem chat_state_cases (genR : String → ParamMap → List String → ℚ → String)
    (findN : String → ParamMap → List String) (ic : IntentClassifier)
    (ents : List Char → Entities) (rng : Nat) (now : String) (msg : List Char)
    (sid : Option String) (st : SessionMap) (s : String) :
    smLookup (outState (chat genR findN ic ents rng now msg sid st)) s = smLookup st s ∨
    smLookup (outState (chat genR findN ic ents rng now msg sid st)) s
      = some (newTurnCtx st s (clean_text msg)
          (genR (process_query ic ents (clean_text msg) (smLookup st s)).intent
                (process_query ic ents (clean_text msg) (smLookup st s)).parameters
                (process_query ic ents (clean_text msg) (smLookup st s)).missing_parameters
                (process_query ic ents (clean_text msg) (smLookup st s)).confidence)
          now (process_query ic ents (clean_text msg) (smLookup st s))) := by
  by_cases h1 : (pyStrip msg).isEmpty = true
  · left
    unfold chat
    rw [if_pos h1]
    rfl
  · unfold chat
    rw [if_neg h1]
    by_cases hg : is_greeting (clean_text msg) = true
    · left
      rw [if_pos hg]
      rfl
    · rw [if_neg hg]
      by_cases hb : is_goodbye (clean_text msg) = true
      · left
        rw [if_pos hb]
        rfl
      · rw [if_neg hb]
        unfold chatMain
        cases hsid : sidTruthy sid with
        | none => left; rfl
        | some s0 =>
          by_cases hs : s0 = s
          · subst hs
            right
            show smLookup (smUpdate st s0 _) s0 = some _
            exact smLookup_smUpdate_self _ _ _
          · left
            show smLookup (smUpdate st s0 _) s = smLookup st s
            exact smLookup_smUpdate_ne _ _ _ _ hs

theorem reachINV (genR : String → ParamMap → List String → ℚ → String)
    (findN : String → ParamMap → List String) (ic : IntentClassifier)
    (ents : List Char → Entities) (st : SessionMap)
    (h : Reachable genR findN ic ents st) : stateINV st := by
  induction h with
  | start =>
    intro s c hc
    exact absurd hc (by simp [smLookup])
  | step st rng now msg sid _ ih =>
    intro s c hc
    rcases chat_state_cases genR findN ic ents rng now msg sid st s with hcase | hcase
    · rw [hcase] at hc
      exact ih s c hc
    · rw [hcase] at hc
      have hc2 := Option.some.inj hc
      subst hc2
      refine ⟨rfl, _, rfl, rfl, ?_⟩
      exact pmUpdateAll_nodup _ _ (pmUpdateAll_nodup _ [] List.nodup_nil)

theorem pmLookup_some_not_nil (m : ParamMap) (k : String) (v : List (List Char))
    (h : pmLookup m k = some v) : m.isEmpty = false := by
  cases m with
  | nil => exact absurd h (by simp [pmLookup])
  | cons e t => rfl

theorem pq_params_nodup (ic : IntentClassifier) (ents : List Char → Entities)
    (text : List Char) (c : Ctx) (m : ParamMap)
    (hmiss : c.missing_parameters = none) (hap : c.all_parameters = some m)
    (hndm : (pmKeys m).Nodup) :
    (pmKeys (process_query ic ents text (some c)).parameters).Nodup := by
  obtain ⟨li, lp, ap, mp, hist, ts⟩ := c
  have hmp : mp = none := hmiss
  subst hmp
  have hap2 : ap = some m := hap
  subst hap2
  show (pmKeys (if m.isEmpty = true then
      extract_parameters ents (preprocess_text text)
        (IntentClassifier.predict ic (preprocess_text text)).1
        (some ⟨li, lp, some m, none, hist, ts⟩)
    else pmMergeTruthy m
      (extract_parameters ents (preprocess_text text)
        (IntentClassifier.predict ic (preprocess_text text)).1
        (some ⟨li, lp, some m, none, hist, ts⟩)))).Nodup
  by_cases he : m.isEmpty = true
  · rw [if_pos he]
    exact extract_nodup _ _ _ _
  · rw [if_neg he]
    exact pmMergeTruthy_nodup _ m hndm

theorem pq_params_mono (ic : IntentClassifier) (ents : List Char → Entities)
    (text : List Char) (c : Ctx) (m : ParamMap) (k : String) (v : List (List Char))
    (hmiss : c.missing_parameters = none) (hap : c.all_parameters = some m)
    (hv : pmLookup m k = some v) :
    pmLookup (process_query ic ents text (some c)).parameters k = some v ∨
    (∃ w, pmLookup (extract_parameters ents (preprocess_text text)
          (IntentClassifier.predict ic (preprocess_text text)).1 (some c)) k = some w ∧
      w.isEmpty = false ∧
      pmLookup (process_query ic ents text (some c)).parameters k = some w) := by
  obtain ⟨li, lp, ap, mp, hist, ts⟩ := c
  have hmp : mp = none := hmiss
  subst hmp
  have hap2 : ap = some m := hap
  subst hap2
  have hme : m.isEmpty = false := pmLookup_some_not_nil m k v hv
  have hshow : (process_query ic ents text (some ⟨li, lp, some m, none, hist, ts⟩)).parameters
      = if m.isEmpty = true then
          extract_parameters ents (preprocess_text text)
            (IntentClassifier.predict ic (preprocess_text text)).1
            (some ⟨li, lp, some m, none, hist, ts⟩)
        else pmMergeTruthy m
          (extract_parameters ents (preprocess_text text)
            (IntentClassifier.predict ic (preprocess_text text)).1
            (some ⟨li, lp, some m, none, hist, ts⟩)) := rfl
  have hnE := extract_nodup ents (preprocess_text text)
    (IntentClassifier.predict ic (preprocess_text text)).1
    (some ⟨li, lp, some m, none, hist, ts⟩)
  cases hE : pmLookup (extract_parameters ents (preprocess_text text)
      (IntentClassifier.predict ic (preprocess_text text)).1
      (some ⟨li, lp, some m, none, hist, ts⟩)) k with
  | none =>
    refine Or.inl ?_
    rw [hshow, if_neg (by rw [hme]; exact Bool.false_ne_true),
        pmLookup_pmMergeTruthy _ hnE m k, hE]
    exact hv
  | some w =>
    by_cases hw : w.isEmpty = true
    · refine Or.inl ?_
      rw [hshow, if_neg (by rw [hme]; exact Bool.false_ne_true),
          pmLookup_pmMergeTruthy _ hnE m k, hE]
      show (if w.isEmpty = true then pmLookup m k else some w) = some v
      rw [if_pos hw]
      exact hv
    · refine Or.inr ⟨w, ?_, ?_, ?_⟩
      · rfl
      · cases hwe : w.isEmpty with
        | true => exact absurd hwe hw
        | false => rfl
      · rw [hshow, if_neg (by rw [hme]; exact Bool.false_ne_true),
            pmLookup_pmMergeTruthy _ hnE m k, hE]
        show (if w.isEmpty = true then pmLookup m k else some w) = some w
        rw [if_neg hw]

theorem isEmpty_false_ne_nil {α : Type} (l : List α) (h : l.isEmpty = false) : l ≠ [] := by
  intro hc
  subst hc
  exact absurd h (by simp)

/-- C3: monotonic merge across `/chat` turns.  In any reachable session
store, if the accumulated parameters of a session carry a slot `k` with a
non-empty value `v`, then after one more turn — whatever its message, session
id, timestamp and randomness — the slot is still present with a non-empty
value, and that value differs from `v` only if the turn's extraction produced
a non-empty value list for exactly that slot key; an extraction that produces
nothing for the slot, or an empty value, never clears or changes it. -/
theorem claim_C3 (genR : String → ParamMap → List String → ℚ → String)
    (findN : String → ParamMap → List String) (ic : IntentClassifier)
    (ents : List Char → Entities) (st : SessionMap)
    (hreach : Reachable genR findN ic ents st)
    (rng : Nat) (now : String) (msg : List Char) (sid : Option String)
    (s : String) (c : Ctx) (m : ParamMap) (k : String) (v : List (List Char))
    (hc : smLookup st s = some c) (hm : c.all_parameters = some m)
    (hv : pmLookup m k = some v) (hvne : v ≠ []) :
    ∃ c2 m2 v2,
      smLookup (outState (chat genR findN ic ents rng now msg sid st)) s = some c2 ∧
      c2.all_parameters = some m2 ∧ pmLookup m2 k = some v2 ∧ v2 ≠ [] ∧
      (v2 = v ∨
        (pmLookup (extract_parameters ents (preprocess_text (clean_text msg))
            (IntentClassifier.predict ic (preprocess_text (clean_text msg))).1 (some c)) k
          = some v2 ∧ v2 ≠ [])) := by
  rcases chat_state_cases genR findN ic ents rng now msg sid st s with hcase | hcase
  · exact ⟨c, m, v, by rw [hcase]; exact hc, hm, hv, hvne, Or.inl rfl⟩
  · obtain ⟨hmiss, m2, hlp, hap2, hnd0⟩ := reachINV genR findN ic ents st hreach s c hc
    have hm2 : m2 = m := by
      rw [hap2] at hm
      exact Option.some.inj hm
    subst hm2
    rw [hc] at hcase
    have hndR : (pmKeys (process_query ic ents (clean_text msg) (some c)).parameters).Nodup :=
      pq_params_nodup ic ents (clean_text msg) c m2 hmiss hap2 hnd0
    rcases pq_params_mono ic ents (clean_text msg) c m2 k v hmiss hap2 hv with hR | ⟨w, hEw, hwne, hRw⟩
    · refine ⟨_, _, v, hcase, rfl, ?_, hvne, Or.inl rfl⟩
      rw [pmLookup_pmUpdateAll _ hndR _ k, hR]
    · refine ⟨_, _, w, hcase, rfl, ?_, isEmpty_false_ne_nil _ hwne, Or.inr ⟨hEw, isEmpty_false_ne_nil _ hwne⟩⟩
      rw [pmLookup_pmUpdateAll _ hndR _ k, hRw]

theorem claim_C3_witness :
    smLookup st1 "s1" = some ctx1 ∧
    ctx1.all_parameters = some pm1 ∧
    pmLookup pm1 "department" = some ["computer science".toList] ∧
    (∃ c2 m2 v2,
      smLookup (outState (chat genR0 findN0 ic0 noEnts 1 "t1" ("what about law".toList)
          (some "s1") st1)) "s1" = some c2 ∧
      c2.all_parameters = some m2 ∧ pmLookup m2 "department" = some v2 ∧ v2 ≠ [] ∧
      (v2 = ["computer science".toList] ∨
        (pmLookup (extract_parameters noEnts (preprocess_text (clean_text ("what about law".toList)))
            (IntentClassifier.predict ic0 (preprocess_text (clean_text ("what about law".toList)))).1
            (some ctx1)) "department" = some v2 ∧ v2 ≠ []))) :=
  ⟨by decide, rfl, by decide,
   claim_C3 genR0 findN0 ic0 noEnts st1
     (Reachable.step [] 0 "t0" ("computer science".toList) (some "s1") Reachable.start)
     1 "t1" ("what about law".toList) (some "s1") "s1" ctx1 pm1 "department"
     ["computer science".toList] (by decide) rfl (by decide) (by decide)⟩

theorem flatten_append (u v : List Chunk) :
    flattenChunks (u ++ v) = flattenChunks u ++ flattenChunks v := by
  induction u with
  | nil => rfl
  | cons ch t ih => simp [flattenChunks, ih]

theorem consChunk_flatten (c : Char) (L : List Chunk) :
    flattenChunks (consChunk c L) = c :: flattenChunks L := by
  cases L with
  | nil =>
    by_cases h : isWordChar c = true
    · simp [consChunk, h, flattenChunks, chunkChars]
    · simp [consChunk, h, flattenChunks, chunkChars]
  | cons ch rest =>
    cases ch with
    | word w =>
      by_cases h : isWordChar c = true
      · simp [consChunk, h, flattenChunks, chunkChars]
      · simp [consChunk, h, flattenChunks, chunkChars]
    | sep w =>
      by_cases h : isWordChar c = true
      · simp [consChunk, h, flattenChunks, chunkChars]
      · simp [consChunk, h, flattenChunks, chunkChars]

theorem flatten_parse (s : List Char) : flattenChunks (parseChunks s) = s := by
  induction s with
  | nil => rfl
  | cons c cs ih =>
    show flattenChunks (consChunk c (parseChunks cs)) = c :: cs
    rw [consChunk_flatten, ih]

theorem chunksWF_append (u : List Chunk) :
    ∀ (prev : Option Bool) (v : List Chunk),
      chunksWF prev (u ++ v) = (chunksWF prev u && chunksWF (lastKind prev u) v) := by
  induction u with
  | nil => intro prev v; simp [chunksWF, lastKind]
  | cons ch t ih =>
    intro prev v
    show (chunkOK ch && (prev != some (chunkIsWord ch)) && chunksWF (some (chunkIsWord ch)) (t ++ v))
        = _
    rw [ih (some (chunkIsWord ch)) v]
    show _ = (chunkOK ch && (prev != some (chunkIsWord ch)) && chunksWF (some (chunkIsWord ch)) t
        && chunksWF (lastKind (some (chunkIsWord ch)) t) v)
    cases chunkOK ch <;> cases (prev != some (chunkIsWord ch)) <;>
      cases chunksWF (some (chunkIsWord ch)) t <;>
      cases chunksWF (lastKind (some (chunkIsWord ch)) t) v <;> rfl

theorem chunksWF_cons_iff (prev : Option Bool) (ch : Chunk) (rest : List Chunk) :
    chunksWF prev (ch :: rest) = true ↔
      (chunkOK ch = true ∧ (prev != some (chunkIsWord ch)) = true
        ∧ chunksWF (some (chunkIsWord ch)) rest = true) := by
  show (chunkOK ch && (prev != some (chunkIsWord ch))
      && chunksWF (some (chunkIsWord ch)) rest) = true ↔ _
  simp [Bool.and_eq_true, and_assoc]

theorem consChunk_wf (c : Char) (L : List Chunk) (h : chunksWF none L = true) :
    chunksWF none (consChunk c L) = true := by
  cases L with
  | nil =>
    by_cases hw : isWordChar c = true
    · have hcc : consChunk c [] = [Chunk.word [c]] := by simp [consChunk, hw]
      rw [hcc]
      simp [chunksWF, chunkOK, chunkIsWord, hw]
    · have hcc : consChunk c [] = [Chunk.sep [c]] := by simp [consChunk, hw]
      rw [hcc]
      simp [chunksWF, chunkOK, chunkIsWord, hw]
  | cons ch rest =>
    obtain ⟨hok, _, hrest⟩ := (chunksWF_cons_iff none ch rest).mp h
    cases ch with
    | word w =>
      by_cases hw : isWordChar c = true
      · have hcc : consChunk c (Chunk.word w :: rest) = Chunk.word (c :: w) :: rest := by
          simp [consChunk, hw]
        rw [hcc]
        refine (chunksWF_cons_iff none _ rest).mpr ⟨?_, rfl, hrest⟩
        simp [chunkOK] at hok ⊢
        exact ⟨hw, hok.2⟩
      · have hcc : consChunk c (Chunk.word w :: rest)
            = Chunk.sep [c] :: Chunk.word w :: rest := by
          simp [consChunk, hw]
        rw [hcc]
        refine (chunksWF_cons_iff none _ _).mpr ⟨?_, rfl, ?_⟩
        · simp [chunkOK, hw]
        · exact (chunksWF_cons_iff _ _ _).mpr ⟨hok, rfl, hrest⟩
    | sep w =>
      by_cases hw : isWordChar c = true
      · have hcc : consChunk c (Chunk.sep w :: rest)
            = Chunk.word [c] :: Chunk.sep w :: rest := by
          simp [consChunk, hw]
        rw [hcc]
        refine (chunksWF_cons_iff none _ _).mpr ⟨?_, rfl, ?_⟩
        · simp [chunkOK, hw]
        · exact (chunksWF_cons_iff _ _ _).mpr ⟨hok, rfl, hrest⟩
      · have hcc : consChunk c (Chunk.sep w :: rest) = Chunk.sep (c :: w) :: rest := by
          simp [consChunk, hw]
        rw [hcc]
        refine (chunksWF_cons_iff none _ rest).mpr ⟨?_, rfl, hrest⟩
        have hw2 : isWordChar c = false := by
          cases hval : isWordChar c with
          | true => exact absurd hval hw
          | false => rfl
        simp [chunkOK] at hok ⊢
        exact ⟨hw2, hok.2⟩

theorem parse_wf (s : List Char) : chunksWF none (parseChunks s) = true := by
  induction s with
  | nil => rfl
  | cons c cs ih => exact consChunk_wf c (parseChunks cs) ih

theorem parse_append_run (b : Bool) (w : List Char) (v : List Char)
    (hw : w ≠ []) (hall : w.all (fun c => isWordChar c == b) = true)
    (hv : ∀ ch rest, parseChunks v = ch :: rest → chunkIsWord ch ≠ b) :
    parseChunks (w ++ v)
      = (if b then Chunk.word w else Chunk.sep w) :: parseChunks v := by
  induction w with
  | nil => exact absurd rfl hw
  | cons c w' ih =>
    have hc : isWordChar c = b := by
      have := hall
      simp [List.all_cons] at this
      exact this.1
    cases w' with
    | nil =>
      show consChunk c (parseChunks v) = _
      cases hpv : parseChunks v with
      | nil =>
        cases b with
        | true => simp [consChunk, hc]
        | false => simp [consChunk, hc]
      | cons ch rest =>
        have hk := hv ch rest hpv
        cases ch with
        | word u =>
          cases b with
          | true => exact absurd rfl hk
          | false => simp [consChunk, hc]
        | sep u =>
          cases b with
          | true => simp [consChunk, hc]
          | false => exact absurd rfl hk
    | cons d w'' =>
      have hall' : (d :: w'').all (fun c => isWordChar c == b) = true := by
        have := hall
        simp [List.all_cons] at this ⊢
        exact this.2
      have hrec := ih (by simp) hall'
      show consChunk c (parseChunks ((d :: w'') ++ v)) = _
      rw [hrec]
      cases b with
      | true => simp [consChunk, hc]
      | false => simp [consChunk, hc]

theorem parse_flatten (L : List Chunk) :
    ∀ prev, chunksWF prev L = true → parseChunks (flattenChunks L) = L := by
  induction L with
  | nil => intro prev _; rfl
  | cons ch rest ih =>
    intro prev h
    obtain ⟨hok, _, hrest⟩ := (chunksWF_cons_iff prev ch rest).mp h
    have hr := ih (some (chunkIsWord ch)) hrest
    show parseChunks (chunkChars ch ++ flattenChunks rest) = ch :: rest
    have hv : ∀ ch' rest', parseChunks (flattenChunks rest) = ch' :: rest' →
        chunkIsWord ch' ≠ chunkIsWord ch := by
      intro ch' rest' hpv
      rw [hr] at hpv
      subst hpv
      obtain ⟨_, hne, _⟩ := (chunksWF_cons_iff (some (chunkIsWord ch)) ch' rest').mp hrest
      intro hcon
      rw [hcon] at hne
      simp at hne
    cases ch with
    | word w =>
      have hne : w ≠ [] := by
        simp [chunkOK] at hok
        exact hok.1
      have hall : w.all (fun c => isWordChar c == true) = true := by
        simp [chunkOK] at hok
        simp [List.all_eq_true]
        exact hok.2
      have := parse_append_run true w (flattenChunks rest) hne hall
        (by intro ch' rest' hp; exact hv ch' rest' hp)
      show parseChunks (w ++ flattenChunks rest) = Chunk.word w :: rest
      rw [this, hr]
      rfl
    | sep w =>
      have hne : w ≠ [] := by
        simp [chunkOK] at hok
        exact hok.1
      have hall : w.all (fun c => isWordChar c == false) = true := by
        simp [chunkOK] at hok
        simp [List.all_eq_true]
        exact hok.2
      have := parse_append_run false w (flattenChunks rest) hne hall
        (by intro ch' rest' hp; exact hv ch' rest' hp)
      show parseChunks (w ++ flattenChunks rest) = Chunk.sep w :: rest
      rw [this, hr]
      rfl

theorem lastKind_indep (K : List Chunk) :
    ∀ p p' : Option Bool, K ≠ [] → lastKind p K = lastKind p' K := by
  induction K with
  | nil => intro p p' h; exact absurd rfl h
  | cons ch rest ih =>
    intro p p' _
    cases rest with
    | nil => rfl
    | cons ch2 rest2 =>
      show lastKind (some (chunkIsWord ch)) (ch2 :: rest2)
          = lastKind (some (chunkIsWord ch)) (ch2 :: rest2)
      rfl

theorem expOne_wf (a f : List Char)
    (hK1 : chunksWF none (parseChunks f) = true)
    (hK2 : chunksWF (some false) (parseChunks f) = true)
    (hKl : lastKind none (parseChunks f) = some true) :
    ∀ (L : List Chunk) (prev : Option Bool),
      chunksWF prev L = true → chunksWF prev (expOne a f L) = true := by
  intro L
  induction L with
  | nil => intro prev h; exact h
  | cons ch rest ih =>
    intro prev h
    obtain ⟨hok, hne, hrest⟩ := (chunksWF_cons_iff prev ch rest).mp h
    cases ch with
    | sep w =>
      show chunksWF prev (Chunk.sep w :: expOne a f rest) = true
      exact (chunksWF_cons_iff _ _ _).mpr ⟨hok, hne, ih (some false) hrest⟩
    | word w =>
      by_cases hrep : lcList w = a
      · have hstep : expOne a f (Chunk.word w :: rest) = parseChunks f ++ expOne a f rest := by
          show expandChunk a f (Chunk.word w) ++ expOne a f rest = _
          simp [expandChunk, hrep]
        rw [hstep, chunksWF_append]
        have hKne : parseChunks f ≠ [] := by
          intro hc
          rw [hc] at hKl
          exact absurd hKl (by simp [lastKind])
        have hprev : prev = none ∨ prev = some false := by
          cases prev with
          | none => exact Or.inl rfl
          | some b =>
            cases b with
            | true => exact absurd hne (by simp [chunkIsWord])
            | false => exact Or.inr rfl
        have hWFK : chunksWF prev (parseChunks f) = true := by
          rcases hprev with hp | hp
          · rw [hp]; exact hK1
          · rw [hp]; exact hK2
        have hlast : lastKind prev (parseChunks f) = some true := by
          rw [lastKind_indep (parseChunks f) prev none hKne]
          exact hKl
        rw [hWFK, hlast]
        show chunksWF (some true) (expOne a f rest) = true
        exact ih (some true) hrest
      · have hstep : expOne a f (Chunk.word w :: rest) = Chunk.word w :: expOne a f rest := by
          show expandChunk a f (Chunk.word w) ++ expOne a f rest = _
          simp [expandChunk, hrep]
        rw [hstep]
        exact (chunksWF_cons_iff _ _ _).mpr ⟨hok, hne, ih (some true) hrest⟩

theorem memB_append_one (S : List (List Char)) (a w : List Char) :
    memB w (S ++ [a]) = (memB w S || decide (a = w)) := by
  induction S with
  | nil => simp [memB]
  | cons y t ih =>
    show (decide (y = w) || memB w (t ++ [a])) = ((decide (y = w) || memB w t) || decide (a = w))
    rw [ih]
    cases decide (y = w) <;> cases memB w t <;> cases decide (a = w) <;> rfl

theorem expOne_avoid (a f : List Char) (S : List (List Char))
    (hf : (parseChunks f).all (chunkAvoid (S ++ [a])) = true) :
    ∀ L, L.all (chunkAvoid S) = true → (expOne a f L).all (chunkAvoid (S ++ [a])) = true := by
  intro L
  induction L with
  | nil => intro _; rfl
  | cons ch rest ih =>
    intro h
    rw [List.all_cons, Bool.and_eq_true] at h
    obtain ⟨hch, hrest⟩ := h
    cases ch with
    | sep w =>
      show ((Chunk.sep w :: expOne a f rest).all (chunkAvoid (S ++ [a]))) = true
      rw [List.all_cons, Bool.and_eq_true]
      exact ⟨rfl, ih hrest⟩
    | word w =>
      by_cases hrep : lcList w = a
      · have hstep : expOne a f (Chunk.word w :: rest) = parseChunks f ++ expOne a f rest := by
          show expandChunk a f (Chunk.word w) ++ expOne a f rest = _
          simp [expandChunk, hrep]
        rw [hstep, List.all_append, Bool.and_eq_true]
        exact ⟨hf, ih hrest⟩
      · have hstep : expOne a f (Chunk.word w :: rest) = Chunk.word w :: expOne a f rest := by
          show expandChunk a f (Chunk.word w) ++ expOne a f rest = _
          simp [expandChunk, hrep]
        rw [hstep, List.all_cons, Bool.and_eq_true]
        refine ⟨?_, ih hrest⟩
        show (!(memB (lcList w) (S ++ [a]))) = true
        rw [memB_append_one]
        have h1 : memB (lcList w) S = false := by
          have := hch
          show _ = _
          cases hm : memB (lcList w) S with
          | false => rfl
          | true =>
            rw [show chunkAvoid S (Chunk.word w) = !(memB (lcList w) S) from rfl, hm] at this
            exact absurd this (by decide)
        rw [h1]
        simp [hrep]
        intro hc
        exact hrep hc.symm

theorem expOne_id (a f : List Char) (S : List (List Char)) (ha : memB a S = true) :
    ∀ L, L.all (chunkAvoid S) = true → expOne a f L = L := by
  intro L
  induction L with
  | nil => intro _; rfl
  | cons ch rest ih =>
    intro h
    rw [List.all_cons, Bool.and_eq_true] at h
    obtain ⟨hch, hrest⟩ := h
    cases ch with
    | sep w =>
      show Chunk.sep w :: expOne a f rest = _
      rw [ih hrest]
    | word w =>
      have hrep : lcList w ≠ a := by
        intro hc
        rw [show chunkAvoid S (Chunk.word w) = !(memB (lcList w) S) from rfl, hc, ha] at hch
        exact absurd hch (by decide)
      have hstep : expOne a f (Chunk.word w :: rest) = Chunk.word w :: expOne a f rest := by
        show expandChunk a f (Chunk.word w) ++ expOne a f rest = _
        simp [expandChunk, hrep]
      rw [hstep, ih hrest]

theorem lastB_append (v : List Char) (hv : v ≠ []) :
    ∀ u : List Char, lastB (u ++ v) = lastB v := by
  intro u
  induction u with
  | nil => rfl
  | cons c u' ih =>
    cases hu : u' ++ v with
    | nil =>
      cases u' <;> cases v <;> simp_all
    | cons d t =>
      show lastB (c :: (u' ++ v)) = lastB v
      rw [hu]
      show lastB (d :: t) = lastB v
      rw [← hu, ih]

theorem headB_append (u v : List Char) (hu : u ≠ []) : headB (u ++ v) = headB u := by
  cases u with
  | nil => exact absurd rfl hu
  | cons c t => rfl

theorem headB_reverse (l : List Char) : headB l.reverse = lastB l := by
  induction l with
  | nil => rfl
  | cons c t ih =>
    cases t with
    | nil => rfl
    | cons d t2 =>
      rw [show (c :: d :: t2).reverse = (d :: t2).reverse ++ [c] from List.reverse_cons c (d :: t2),
        headB_append _ _ (by simp), ih]
      rfl

theorem collN_append (u : List Char) :
    ∀ (b : Bool) (v : List Char),
      collN b (u ++ v) = (collN b u && collN (spAfter b u) v) := by
  induction u with
  | nil => intro b v; simp [collN, spAfter]
  | cons c u' ih =>
    intro b v
    by_cases hsp : pySpace c = true
    · show (if pySpace c = true then
          (decide (c = ' ') && !b && collN true (u' ++ v)) else collN false (u' ++ v)) = _
      rw [if_pos hsp, ih true v]
      show _ = ((if pySpace c = true then
          (decide (c = ' ') && !b && collN true u') else collN false u')
        && collN (spAfter (pySpace c) u') v)
      rw [if_pos hsp, hsp]
      cases decide (c = ' ') <;> cases b <;> cases collN true u' <;>
        cases collN (spAfter true u') v <;> rfl
    · show (if pySpace c = true then
          (decide (c = ' ') && !b && collN true (u' ++ v)) else collN false (u' ++ v)) = _
      rw [if_neg hsp, ih false v]
      show _ = ((if pySpace c = true then
          (decide (c = ' ') && !b && collN true u') else collN false u')
        && collN (spAfter (pySpace c) u') v)
      rw [if_neg hsp]
      have hf : pySpace c = false := by
        cases hval : pySpace c with
        | true => exact absurd hval hsp
        | false => rfl
      rw [hf]

theorem collapse_id (t : List Char) : ∀ b, collN b t = true → collapseWS b t = t := by
  induction t with
  | nil => intro b _; rfl
  | cons c cs ih =>
    intro b h
    by_cases hsp : pySpace c = true
    · have h2 : (decide (c = ' ') && !b && collN true cs) = true := by
        have := h
        show _ = _
        rw [show collN b (c :: cs)
            = if pySpace c = true then (decide (c = ' ') && !b && collN true cs)
              else collN false cs from rfl, if_pos hsp] at this
        exact this
      rw [Bool.and_eq_true, Bool.and_eq_true] at h2
      obtain ⟨⟨hc, hb⟩, hcs⟩ := h2
      have hb2 : b = false := by
        cases b with
        | true => exact absurd hb (by decide)
        | false => rfl
      subst hb2
      have hc2 : c = ' ' := of_decide_eq_true hc
      show (if pySpace c = true then ' ' :: collapseWS true cs
          else c :: collapseWS false cs) = c :: cs
      rw [if_pos hsp]
      rw [ih true hcs, hc2]
    · have h2 : collN false cs = true := by
        have := h
        show _ = _
        rw [show collN b (c :: cs)
            = if pySpace c = true then (decide (c = ' ') && !b && collN true cs)
              else collN false cs from rfl, if_neg hsp] at this
        exact this
      show (if pySpace c = true then
          (if b = true then collapseWS true cs else ' ' :: collapseWS true cs)
          else c :: collapseWS false cs) = c :: cs
      rw [if_neg hsp, ih false h2]

theorem collapse_norm (s : List Char) : ∀ b, collN b (collapseWS b s) = true := by
  induction s with
  | nil => intro b; rfl
  | cons c cs ih =>
    intro b
    by_cases hsp : pySpace c = true
    · show collN b (if pySpace c = true then
          (if b then collapseWS true cs else ' ' :: collapseWS true cs)
          else c :: collapseWS false cs) = true
      rw [if_pos hsp]
      cases b with
      | true => exact ih true
      | false =>
        show collN false (' ' :: collapseWS true cs) = true
        rw [show collN false (' ' :: collapseWS true cs)
            = if pySpace ' ' = true then
                (decide (' ' = ' ') && !false && collN true (collapseWS true cs))
              else collN false (collapseWS true cs) from rfl,
          if_pos (by decide)]
        show collN true (collapseWS true cs) = true
        exact ih true
    · show collN b (if pySpace c = true then
          (if b then collapseWS true cs else ' ' :: collapseWS true cs)
          else c :: collapseWS false cs) = true
      rw [if_neg hsp]
      show collN b (c :: collapseWS false cs) = true
      rw [show collN b (c :: collapseWS false cs)
          = if pySpace c = true then
              (decide (c = ' ') && !b && collN true (collapseWS false cs))
            else collN false (collapseWS false cs) from rfl, if_neg hsp]
      exact ih false

theorem dropWhile_headB (l : List Char) : headB (l.dropWhile pySpace) = true := by
  induction l with
  | nil => rfl
  | cons c cs ih =>
    by_cases hsp : pySpace c = true
    · rw [List.dropWhile_cons, if_pos hsp]
      exact ih
    · rw [List.dropWhile_cons, if_neg hsp]
      show (!pySpace c) = true
      cases hval : pySpace c with
      | true => exact absurd hval hsp
      | false => rfl

theorem dropWhile_lastB (l : List Char) (h : lastB l = true) :
    lastB (l.dropWhile pySpace) = true := by
  induction l with
  | nil => exact h
  | cons c cs ih =>
    by_cases hsp : pySpace c = true
    · rw [List.dropWhile_cons, if_pos hsp]
      cases cs with
      | nil =>
        exact absurd h (by show ¬((!pySpace c) = true); rw [hsp]; decide)
      | cons d t => exact ih h
    · rw [List.dropWhile_cons, if_neg hsp]
      exact h

theorem dropWhile_id (l : List Char) (h : headB l = true) : l.dropWhile pySpace = l := by
  cases l with
  | nil => rfl
  | cons c cs =>
    rw [List.dropWhile_cons, if_neg]
    intro hc
    have h2 : (!pySpace c) = true := h
    rw [hc] at h2
    exact absurd h2 (by decide)

theorem pyStrip_headB (s : List Char) : headB (pyStrip s) = true := by
  unfold pyStrip
  have h1 : lastB ((s.dropWhile pySpace).reverse) = true := by
    rw [← headB_reverse, List.reverse_reverse]
    exact dropWhile_headB s
  have h2 := dropWhile_lastB _ h1
  rw [headB_reverse]
  exact h2

theorem pyStrip_lastB (s : List Char) : lastB (pyStrip s) = true := by
  unfold pyStrip
  rw [← headB_reverse, List.reverse_reverse]
  exact dropWhile_headB _

theorem strip_id (t : List Char) (h1 : headB t = true) (h2 : lastB t = true) :
    pyStrip t = t := by
  unfold pyStrip
  rw [dropWhile_id t h1]
  rw [dropWhile_id t.reverse (by rw [headB_reverse]; exact h2)]
  exact List.reverse_reverse t

theorem isWordChar_not_space (c : Char) (h : isWordChar c = true) : pySpace c = false := by
  cases hval : pySpace c with
  | false => rfl
  | true =>
    have h6 := hval
    simp only [pySpace, Bool.or_eq_true, decide_eq_true_eq] at h6
    rcases h6 with ((((h2 | h2) | h2) | h2) | h2) | h2 <;> (subst h2; exact absurd h (by decide))

theorem collN_head_indep (f : List Char) (hh : headB f = true) (hne : f ≠ []) (b : Bool) :
    collN b f = collN false f := by
  cases f with
  | nil => exact absurd rfl hne
  | cons c cs =>
    have hc : pySpace c = false := by
      cases hval : pySpace c with
      | false => rfl
      | true => exact absurd hh (by show ¬(!pySpace c) = true; rw [hval]; decide)
    show (if pySpace c = true then (decide (c = ' ') && !b && collN true cs)
        else collN false cs)
        = (if pySpace c = true then (decide (c = ' ') && !false && collN true cs)
        else collN false cs)
    rw [hc]
    rfl

theorem spAfter_lastB (f : List Char) :
    ∀ b, f ≠ [] → lastB f = true → spAfter b f = false := by
  induction f with
  | nil => intro b h _; exact absurd rfl h
  | cons c cs ih =>
    intro b _ hl
    cases cs with
    | nil =>
      show pySpace c = false
      cases hval : pySpace c with
      | false => rfl
      | true => exact absurd hl (by show ¬(!pySpace c) = true; rw [hval]; decide)
    | cons d t =>
      show spAfter (pySpace c) (d :: t) = false
      exact ih (pySpace c) (by simp) hl

theorem wf_all_ok (L : List Chunk) :
    ∀ prev, chunksWF prev L = true → L.all chunkOK = true := by
  induction L with
  | nil => intro _ _; rfl
  | cons ch rest ih =>
    intro prev h
    obtain ⟨hok, _, hrest⟩ := (chunksWF_cons_iff prev ch rest).mp h
    rw [List.all_cons, Bool.and_eq_true]
    exact ⟨hok, ih _ hrest⟩

theorem flatten_ne (L : List Chunk) (hL : L ≠ []) (hok : L.all chunkOK = true) :
    flattenChunks L ≠ [] := by
  cases L with
  | nil => exact absurd rfl hL
  | cons ch rest =>
    rw [List.all_cons, Bool.and_eq_true] at hok
    have hw : chunkChars ch ≠ [] := by
      cases ch with
      | word w =>
        simp [chunkOK] at hok
        exact hok.1.1
      | sep w =>
        simp [chunkOK] at hok
        exact hok.1.1
    show chunkChars ch ++ flattenChunks rest ≠ []
    cases hc : chunkChars ch with
    | nil => exact absurd hc hw
    | cons x xs => simp

theorem expOne_ne (a f : List Char) (hK : parseChunks f ≠ []) (L : List Chunk) (hL : L ≠ []) :
    expOne a f L ≠ [] := by
  cases L with
  | nil => exact absurd rfl hL
  | cons ch rest =>
    cases ch with
    | sep w => simp [expOne, concatMap, expandChunk]
    | word w =>
      show expandChunk a f (Chunk.word w) ++ expOne a f rest ≠ []
      by_cases hrep : lcList w = a
      · simp [expandChunk, hrep]
        intro hc _
        exact absurd hc hK
      · simp [expandChunk, hrep]

theorem expOne_all_ok (a f : List Char) (hfok : (parseChunks f).all chunkOK = true) :
    ∀ L, L.all chunkOK = true → (expOne a f L).all chunkOK = true := by
  intro L
  induction L with
  | nil => intro _; rfl
  | cons ch rest ih =>
    intro h
    rw [List.all_cons, Bool.and_eq_true] at h
    obtain ⟨hch, hrest⟩ := h
    cases ch with
    | sep w =>
      show ((Chunk.sep w :: expOne a f rest).all chunkOK) = true
      rw [List.all_cons, Bool.and_eq_true]
      exact ⟨hch, ih hrest⟩
    | word w =>
      by_cases hrep : lcList w = a
      · have hstep : expOne a f (Chunk.word w :: rest) = parseChunks f ++ expOne a f rest := by
          show expandChunk a f (Chunk.word w) ++ expOne a f rest = _
          simp [expandChunk, hrep]
        rw [hstep, List.all_append, Bool.and_eq_true]
        exact ⟨hfok, ih hrest⟩
      · have hstep : expOne a f (Chunk.word w :: rest) = Chunk.word w :: expOne a f rest := by
          show expandChunk a f (Chunk.word w) ++ expOne a f rest = _
          simp [expandChunk, hrep]
        rw [hstep, List.all_cons, Bool.and_eq_true]
        exact ⟨hch, ih hrest⟩

theorem word_headB (w : List Char) (hne : w ≠ []) (hall : w.all isWordChar = true) :
    headB w = true := by
  cases w with
  | nil => exact absurd rfl hne
  | cons c cs =>
    rw [List.all_cons, Bool.and_eq_true] at hall
    show (!pySpace c) = true
    rw [isWordChar_not_space c hall.1]
    rfl

theorem word_lastB (w : List Char) :
    w ≠ [] → w.all isWordChar = true → lastB w = true := by
  induction w with
  | nil => intro h _; exact absurd rfl h
  | cons c cs ih =>
    intro _ hall
    rw [List.all_cons, Bool.and_eq_true] at hall
    cases cs with
    | nil =>
      show (!pySpace c) = true
      rw [isWordChar_not_space c hall.1]
      rfl
    | cons d t =>
      show lastB (d :: t) = true
      exact ih (by simp) hall.2

theorem pass_collN (a f : List Char) (hfne : f ≠ []) (hfhead : headB f = true)
    (hflast : lastB f = true) (hfcoll : collN false f = true) :
    ∀ (L : List Chunk) (b : Bool), L.all chunkOK = true →
      collN b (flattenChunks L) = true → collN b (flattenChunks (expOne a f L)) = true := by
  intro L
  induction L with
  | nil => intro b _ h; exact h
  | cons ch rest ih =>
    intro b hok h
    rw [List.all_cons, Bool.and_eq_true] at hok
    obtain ⟨hchok, hrestok⟩ := hok
    have hsplit : collN b (chunkChars ch) = true
        ∧ collN (spAfter b (chunkChars ch)) (flattenChunks rest) = true := by
      have h2 := h
      rw [show flattenChunks (ch :: rest) = chunkChars ch ++ flattenChunks rest from rfl,
        collN_append, Bool.and_eq_true] at h2
      exact h2
    cases ch with
    | sep w =>
      show collN b (w ++ flattenChunks (expOne a f rest)) = true
      rw [collN_append, Bool.and_eq_true]
      exact ⟨hsplit.1, ih (spAfter b w) hrestok hsplit.2⟩
    | word w =>
      have hwk : w ≠ [] ∧ w.all isWordChar = true := by
        simp [chunkOK] at hchok
        exact ⟨hchok.1, by rw [List.all_eq_true]; intro x hx; exact hchok.2 x hx⟩
      have hwlast : lastB w = true := word_lastB w hwk.1 hwk.2
      have hsw : spAfter b w = false := spAfter_lastB w b hwk.1 hwlast
      by_cases hrep : lcList w = a
      · have hstep : expOne a f (Chunk.word w :: rest) = parseChunks f ++ expOne a f rest := by
          show expandChunk a f (Chunk.word w) ++ expOne a f rest = _
          simp [expandChunk, hrep]
        rw [hstep, flatten_append, flatten_parse, collN_append, Bool.and_eq_true]
        constructor
        · rw [collN_head_indep f hfhead hfne b]
          exact hfcoll
        · rw [spAfter_lastB f b hfne hflast]
          apply ih false hrestok
          have h3 := hsplit.2
          rw [show chunkChars (Chunk.word w) = w from rfl, hsw] at h3
          exact h3
      · have hstep : expOne a f (Chunk.word w :: rest) = Chunk.word w :: expOne a f rest := by
          show expandChunk a f (Chunk.word w) ++ expOne a f rest = _
          simp [expandChunk, hrep]
        rw [hstep]
        show collN b (w ++ flattenChunks (expOne a f rest)) = true
        rw [collN_append, Bool.and_eq_true]
        exact ⟨hsplit.1, ih (spAfter b w) hrestok hsplit.2⟩

theorem pass_head (a f : List Char) (hfne : f ≠ []) (hfhead : headB f = true) :
    ∀ L : List Chunk, L.all chunkOK = true → headB (flattenChunks L) = true →
      headB (flattenChunks (expOne a f L)) = true := by
  intro L hok h
  cases L with
  | nil => exact h
  | cons ch rest =>
    rw [List.all_cons, Bool.and_eq_true] at hok
    have hwne : chunkChars ch ≠ [] := by
      cases ch with
      | word w => simp [chunkOK] at hok; exact hok.1.1
      | sep w => simp [chunkOK] at hok; exact hok.1.1
    have hhw : headB (chunkChars ch) = true := by
      have h2 := h
      rw [show flattenChunks (ch :: rest) = chunkChars ch ++ flattenChunks rest from rfl,
        headB_append _ _ hwne] at h2
      exact h2
    cases ch with
    | sep w =>
      have hwne' : w ≠ [] := hwne
      have hhw' : headB w = true := hhw
      show headB (w ++ flattenChunks (expOne a f rest)) = true
      rw [headB_append _ _ hwne']
      exact hhw'
    | word w =>
      have hwne' : w ≠ [] := hwne
      have hhw' : headB w = true := hhw
      by_cases hrep : lcList w = a
      · have hstep : expOne a f (Chunk.word w :: rest) = parseChunks f ++ expOne a f rest := by
          show expandChunk a f (Chunk.word w) ++ expOne a f rest = _
          simp [expandChunk, hrep]
        rw [hstep, flatten_append, flatten_parse, headB_append _ _ hfne]
        exact hfhead
      · have hstep : expOne a f (Chunk.word w :: rest) = Chunk.word w :: expOne a f rest := by
          show expandChunk a f (Chunk.word w) ++ expOne a f rest = _
          simp [expandChunk, hrep]
        rw [hstep]
        show headB (w ++ flattenChunks (expOne a f rest)) = true
        rw [headB_append _ _ hwne']
        exact hhw'

theorem pass_last (a f : List Char) (hKne : parseChunks f ≠ [])
    (hfokK : (parseChunks f).all chunkOK = true) (hflast : lastB f = true) :
    ∀ L : List Chunk, L.all chunkOK = true → lastB (flattenChunks L) = true →
      lastB (flattenChunks (expOne a f L)) = true := by
  intro L
  induction L with
  | nil => intro _ h; exact h
  | cons ch rest ih =>
    intro hok h
    rw [List.all_cons, Bool.and_eq_true] at hok
    obtain ⟨hchok, hrestok⟩ := hok
    have hexp : flattenChunks (expOne a f (ch :: rest))
        = flattenChunks (expandChunk a f ch) ++ flattenChunks (expOne a f rest) := by
      show flattenChunks (expandChunk a f ch ++ expOne a f rest) = _
      exact flatten_append _ _
    cases rest with
    | nil =>
      have h2 : lastB (chunkChars ch) = true := by
        have h3 : lastB (chunkChars ch ++ ([] : List Char)) = true := h
        rw [List.append_nil] at h3
        exact h3
      have hch : flattenChunks (expOne a f [ch]) = flattenChunks (expandChunk a f ch) := by
        show flattenChunks (expandChunk a f ch ++ ([] : List Chunk)) = _
        rw [List.append_nil]
      rw [hch]
      cases ch with
      | sep w =>
        have h4 : lastB (w ++ ([] : List Char)) = true := by
          rw [List.append_nil]
          exact h2
        exact h4
      | word w =>
        by_cases hrep : lcList w = a
        · rw [show expandChunk a f (Chunk.word w) = parseChunks f by simp [expandChunk, hrep],
            flatten_parse]
          exact hflast
        · rw [show expandChunk a f (Chunk.word w) = [Chunk.word w] by simp [expandChunk, hrep]]
          have h4 : lastB (w ++ ([] : List Char)) = true := by
            rw [List.append_nil]
            exact h2
          exact h4
    | cons ch2 rest2 =>
      have hRne : flattenChunks (ch2 :: rest2) ≠ [] := flatten_ne _ (by simp) hrestok
      have hin : lastB (flattenChunks (ch2 :: rest2)) = true := by
        have h3 := h
        rw [show flattenChunks (ch :: ch2 :: rest2)
            = chunkChars ch ++ flattenChunks (ch2 :: rest2) from rfl,
          lastB_append _ hRne] at h3
        exact h3
      have hR2 := ih hrestok hin
      have hR2ne : flattenChunks (expOne a f (ch2 :: rest2)) ≠ [] :=
        flatten_ne _ (expOne_ne a f hKne _ (by simp)) (expOne_all_ok a f hfokK _ hrestok)
      rw [hexp, lastB_append _ hR2ne]
      exact hR2

theorem collapseWS_ne (u : List Char) :
    ∀ b, u ≠ [] → lastB u = true → collapseWS b u ≠ [] := by
  induction u with
  | nil => intro b h _; exact absurd rfl h
  | cons c cs ih =>
    intro b _ hl
    cases cs with
    | nil =>
      have hc : pySpace c = false := by
        cases hval : pySpace c with
        | false => rfl
        | true => exact absurd hl (by show ¬(!pySpace c) = true; rw [hval]; decide)
      show (if pySpace c = true then _ else c :: collapseWS false []) ≠ []
      rw [hc]
      simp
    | cons d t =>
      have hl2 : lastB (d :: t) = true := hl
      show (if pySpace c = true then
          (if b then collapseWS true (d :: t) else ' ' :: collapseWS true (d :: t))
        else c :: collapseWS false (d :: t)) ≠ []
      by_cases hc : pySpace c = true
      · rw [if_pos hc]
        cases b with
        | true => exact ih true (by simp) hl2
        | false => simp
      · rw [if_neg hc]
        simp

theorem collapseWS_headB (u : List Char) (h : headB u = true) :
    headB (collapseWS false u) = true := by
  cases u with
  | nil => rfl
  | cons c cs =>
    have hc : pySpace c = false := by
      cases hval : pySpace c with
      | false => rfl
      | true => exact absurd h (by show ¬(!pySpace c) = true; rw [hval]; decide)
    show headB (if pySpace c = true then _ else c :: collapseWS false cs) = true
    rw [hc]
    show (!pySpace c) = true
    rw [hc]
    rfl

theorem lastB_cons_ne (c : Char) (v : List Char) (hv : v ≠ []) :
    lastB (c :: v) = lastB v := by
  cases v with
  | nil => exact absurd rfl hv
  | cons d t => rfl

theorem collapseWS_lastB (u : List Char) :
    ∀ b, lastB u = true → lastB (collapseWS b u) = true := by
  induction u with
  | nil => intro b _; rfl
  | cons c cs ih =>
    intro b hl
    cases cs with
    | nil =>
      have hc : pySpace c = false := by
        cases hval : pySpace c with
        | false => rfl
        | true => exact absurd hl (by show ¬(!pySpace c) = true; rw [hval]; decide)
      show lastB (if pySpace c = true then _ else c :: collapseWS false []) = true
      rw [hc]
      show (!pySpace c) = true
      rw [hc]
      rfl
    | cons d t =>
      have hl2 : lastB (d :: t) = true := hl
      show lastB (if pySpace c = true then
          (if b then collapseWS true (d :: t) else ' ' :: collapseWS true (d :: t))
        else c :: collapseWS false (d :: t)) = true
      by_cases hc : pySpace c = true
      · rw [if_pos hc]
        cases b with
        | true => exact ih true hl2
        | false =>
          show lastB (' ' :: collapseWS true (d :: t)) = true
          rw [lastB_cons_ne _ _ (collapseWS_ne (d :: t) true (by simp) hl2)]
          exact ih true hl2
      · rw [if_neg hc]
        rw [lastB_cons_ne _ _ (collapseWS_ne (d :: t) false (by simp) hl2)]
        exact ih false hl2

/-- One abbreviation pass preserves the idempotence invariants: the result
avoids all abbreviations already processed plus the current one, and stays
strip- and collapse-normal. -/
theorem applyAbbrev_inv (a f : List Char) (S : List (List Char))
    (hfne : f ≠ [])
    (hfh : headB f = true) (hfl : lastB f = true) (hfc : collN false f = true)
    (hW1 : chunksWF none (parseChunks f) = true)
    (hW2 : chunksWF (some false) (parseChunks f) = true)
    (hWl : lastKind none (parseChunks f) = some true)
    (hfa : (parseChunks f).all (chunkAvoid (S ++ [a])) = true)
    (t : List Char)
    (hta : (parseChunks t).all (chunkAvoid S) = true)
    (hth : headB t = true) (htl : lastB t = true) (htc : collN false t = true) :
    (parseChunks (applyAbbrev t (a, f))).all (chunkAvoid (S ++ [a])) = true
    ∧ headB (applyAbbrev t (a, f)) = true
    ∧ lastB (applyAbbrev t (a, f)) = true
    ∧ collN false (applyAbbrev t (a, f)) = true := by
  have hKne : parseChunks f ≠ [] := by
    intro hc
    rw [hc] at hWl
    exact absurd hWl (by simp [lastKind])
  have hfokK : (parseChunks f).all chunkOK = true := wf_all_ok _ none hW1
  have hLok : (parseChunks t).all chunkOK = true := wf_all_ok _ none (parse_wf t)
  have hres : applyAbbrev t (a, f) = flattenChunks (expOne a f (parseChunks t)) := rfl
  have hWF2 : chunksWF none (expOne a f (parseChunks t)) = true :=
    expOne_wf a f hW1 hW2 hWl _ none (parse_wf t)
  have hparse2 : parseChunks (applyAbbrev t (a, f)) = expOne a f (parseChunks t) := by
    rw [hres]
    exact parse_flatten _ none hWF2
  refine ⟨?_, ?_, ?_, ?_⟩
  · rw [hparse2]
    exact expOne_avoid a f S hfa _ hta
  · rw [hres]
    apply pass_head a f hfne hfh _ hLok
    rw [flatten_parse]
    exact hth
  · rw [hres]
    apply pass_last a f hKne hfokK hfl _ hLok
    rw [flatten_parse]
    exact htl
  · rw [hres]
    apply pass_collN a f hfne hfh hfl hfc _ false hLok
    rw [flatten_parse]
    exact htc

/-- If the text already avoids a set containing the abbreviation, the pass is
the identity. -/
theorem applyAbbrev_self (a f : List Char) (S : List (List Char)) (ha : memB a S = true)
    (t : List Char) (hta : (parseChunks t).all (chunkAvoid S) = true) :
    applyAbbrev t (a, f) = t := by
  show flattenChunks (concatMap (expandChunk a f) (parseChunks t)) = t
  rw [show concatMap (expandChunk a f) (parseChunks t) = expOne a f (parseChunks t) from rfl,
    expOne_id a f S ha _ hta, flatten_parse]

theorem foldAbbrev_inv (ps : List (List Char × List Char)) :
    ∀ (S : List (List Char)) (t : List Char),
      goodTail S ps = true →
      (parseChunks t).all (chunkAvoid S) = true →
      headB t = true → lastB t = true → collN false t = true →
      (parseChunks (List.foldl applyAbbrev t ps)).all
          (chunkAvoid (S ++ List.map Prod.fst ps)) = true
      ∧ headB (List.foldl applyAbbrev t ps) = true
      ∧ lastB (List.foldl applyAbbrev t ps) = true
      ∧ collN false (List.foldl applyAbbrev t ps) = true := by
  induction ps with
  | nil =>
    intro S t _ hta hth htl htc
    have hS : S ++ List.map Prod.fst ([] : List (List Char × List Char)) = S := by simp
    rw [hS]
    exact ⟨hta, hth, htl, htc⟩
  | cons p ps ih =>
    intro S t hg hta hth htl htc
    obtain ⟨a, f⟩ := p
    simp only [goodTail, Bool.and_eq_true] at hg
    obtain ⟨⟨⟨⟨⟨⟨⟨⟨h1, h2⟩, h3⟩, h4⟩, h5⟩, h6⟩, h7⟩, h8⟩, h9⟩ := hg
    have hfne : f ≠ [] := by
      apply isEmpty_false_ne_nil
      cases hfe : f.isEmpty with
      | false => rfl
      | true => rw [hfe] at h1; exact absurd h1 (by decide)
    have h7a : lastKind none (parseChunks f) = some true := of_decide_eq_true h7
    obtain ⟨ia, ihh, il, ic⟩ :=
      applyAbbrev_inv a f S hfne h2 h3 h4 h5 h6 h7a h8 t hta hth htl htc
    have hrec := ih (S ++ [a]) (applyAbbrev t (a, f)) h9 ia ihh il ic
    have hfold : List.foldl applyAbbrev t ((a, f) :: ps)
        = List.foldl applyAbbrev (applyAbbrev t (a, f)) ps := rfl
    have hset : (S ++ [a]) ++ List.map Prod.fst ps
        = S ++ List.map Prod.fst ((a, f) :: ps) := by simp
    rw [hfold, ← hset]
    exact hrec

theorem foldAbbrev_self (ps : List (List Char × List Char)) :
    ∀ (S : List (List Char)) (t : List Char),
      ps.all (fun p => memB p.1 S) = true →
      (parseChunks t).all (chunkAvoid S) = true →
      List.foldl applyAbbrev t ps = t := by
  induction ps with
  | nil => intro S t _ _; rfl
  | cons p ps ih =>
    intro S t hm hta
    obtain ⟨a, f⟩ := p
    rw [List.all_cons, Bool.and_eq_true] at hm
    have hid : applyAbbrev t (a, f) = t := applyAbbrev_self a f S hm.1 t hta
    show List.foldl applyAbbrev (applyAbbrev t (a, f)) ps = t
    rw [hid]
    exact ih S t hm.2 hta

/-- C9, counterexample: the character-cleaning normalizer
`TextProcessor.clean_text` is not idempotent.  On `"a @ b"` the first pass
first collapses whitespace and only then deletes the disallowed `@`, leaving
the two spaces around it adjacent (`"a  b"`); a second pass collapses that
double space to `"a b"`, so the two passes disagree. -/
theorem claim_C9_cex :
    clean_text (clean_text "a @ b".toList) ≠ clean_text "a @ b".toList := by
  decide

/-- C9, amended: the whitespace-collapsing, abbreviation-expanding
normalizer `AAUNLPEngine._preprocess_text` is idempotent (the
character-cleaning `TextProcessor.clean_text` is not, see the
counterexample).  A first pass leaves the text stripped and
whitespace-collapsed and leaves no maximal word run spelling an
abbreviation (no expansion reintroduces an abbreviation processed at or
before its own pass), so the second pass changes nothing. -/
theorem claim_C9_amended (s : List Char) :
    preprocess_text (preprocess_text s) = preprocess_text s := by
  have h0a : (parseChunks (cleanWS s)).all (chunkAvoid []) = true := by
    rw [List.all_eq_true]
    intro ch _
    cases ch <;> rfl
  have h0h : headB (cleanWS s) = true := collapseWS_headB _ (pyStrip_headB s)
  have h0l : lastB (cleanWS s) = true := collapseWS_lastB _ false (pyStrip_lastB s)
  have h0c : collN false (cleanWS s) = true := collapse_norm (pyStrip s) false
  have hS : goodTail [] abbreviations = true := by decide
  obtain ⟨ha, hh, hl, hc⟩ := foldAbbrev_inv abbreviations [] (cleanWS s) hS h0a h0h h0l h0c
  have hT : preprocess_text s = List.foldl applyAbbrev (cleanWS s) abbreviations := rfl
  rw [hT]
  have hclean : cleanWS (List.foldl applyAbbrev (cleanWS s) abbreviations)
      = List.foldl applyAbbrev (cleanWS s) abbreviations := by
    show collapseWS false (pyStrip _) = _
    rw [strip_id _ hh hl]
    exact collapse_id _ false hc
  show List.foldl applyAbbrev (cleanWS (List.foldl applyAbbrev (cleanWS s) abbreviations))
      abbreviations = List.foldl applyAbbrev (cleanWS s) abbreviations
  rw [hclean]
  exact foldAbbrev_self abbreviations ([] ++ List.map Prod.fst abbreviations) _ (by decide) ha
